import Mathlib

/-!
Verification of the Thaichecker rules engine and search.

The definitions below are a shallow embedding of the Python sources
`board.py`, `game_logic.py` and `ai_minimax.py`: the 8×8 board is a grid
function from integer coordinates to optional pieces, moves are records of
origin, destination and captured squares, and the move generator, the
game-over check and the minimax search are translated function by function.
Python floats are modelled as exact rationals (every comparison made by the
search is order-theoretic, so the structural claims proved here do not
depend on rounding); Python's `-math.inf` / `math.inf` sentinels are
modelled by an extended-rational type `XQ`.
-/

set_option maxHeartbeats 3200000

namespace ThaiChecker

/-- `Player` enum from `board.py`: WHITE starts on the bottom rows and moves
up (row decreasing), BLACK starts on the top rows and moves down. -/
inductive Player where
  | WHITE
  | BLACK
deriving DecidableEq, Repr

/-- The opposing player (computed inline in the Python sources as
`Player.BLACK if p == Player.WHITE else Player.WHITE`). -/
def Player.opp : Player → Player
  | .WHITE => .BLACK
  | .BLACK => .WHITE

/-- `PieceType` enum from `board.py`. -/
inductive PieceType where
  | MAN
  | KING
deriving DecidableEq, Repr

/-- `Piece` from `board.py`: an owner and a kind. -/
structure Piece where
  player : Player
  piece_type : PieceType
deriving DecidableEq, Repr

/-- `Piece.is_king` from `board.py`. -/
def Piece.is_king (p : Piece) : Bool := p.piece_type == PieceType.KING

/-- `Board` from `board.py`: an 8×8 grid of optional pieces, modelled as a
total function on integer coordinates; every access goes through
`get_piece`, which masks coordinates outside `0..7` exactly as the Python
`is_valid_position` guard does. -/
structure Board where
  grid : ℤ → ℤ → Option Piece

/-- `Board.is_valid_position`: both coordinates within `0..7`
(`board.size` is fixed at 8). -/
def is_valid_position (row col : ℤ) : Bool :=
  decide (0 ≤ row) && decide (row < 8) && decide (0 ≤ col) && decide (col < 8)

/-- `Board.is_dark_square`: `(row + col) % 2 == 1`. -/
def is_dark_square (row col : ℤ) : Bool :=
  (row + col) % 2 == 1

/-- `Board.get_piece`: the grid contents at a valid position, `None`
otherwise. -/
def get_piece (b : Board) (row col : ℤ) : Option Piece :=
  if is_valid_position row col then b.grid row col else none

/-- `Board.set_piece`: write a cell if the position is valid, no-op
otherwise. -/
def set_piece (b : Board) (row col : ℤ) (piece : Option Piece) : Board :=
  if is_valid_position row col then
    ⟨fun r c => if r = row ∧ c = col then piece else b.grid r c⟩
  else b

/-- `Board.remove_piece`. -/
def remove_piece (b : Board) (row col : ℤ) : Board :=
  set_piece b row col none

/-- `Board.move_piece`: relocate the piece at the origin to the destination
(the destination cell is written first, then the origin cleared, as in the
Python method), promoting a Man that reaches its side's far edge row.  The
Python code promotes by mutating the piece object after placing it; since
the origin has been cleared, placing the promoted value directly is
observationally the same. -/
def move_piece (b : Board) (from_row from_col to_row to_col : ℤ) : Board :=
  let piece := get_piece b from_row from_col
  let placed : Option Piece :=
    match piece with
    | some p =>
      if !p.is_king &&
          ((p.player == Player.WHITE && to_row == 0) ||
           (p.player == Player.BLACK && to_row == 7)) then
        some { p with piece_type := PieceType.KING }
      else some p
    | none => none
  let b1 := set_piece b to_row to_col placed
  set_piece b1 from_row from_col none

/-- `Board.get_all_pieces`: all `(row, col, piece)` triples owned by a
player, scanned row-major over the whole grid. -/
def get_all_pieces (b : Board) (player : Player) : List (ℤ × ℤ × Piece) :=
  (List.range 8).flatMap (fun r =>
    (List.range 8).filterMap (fun c =>
      match get_piece b (r : ℤ) (c : ℤ) with
      | some piece => if piece.player == player then some ((r : ℤ), (c : ℤ), piece) else none
      | none => none))

/-- `Board.count_pieces`. -/
def count_pieces (b : Board) (player : Player) : ℕ :=
  (get_all_pieces b player).length

/-- `Board.get_square_number`: the 1..32 notation number of a dark square,
`row * 4` plus the 1-based index of the column among the dark columns of
that row.  The Python code raises if the column is absent from the list
(impossible for in-range dark squares); that failure is modelled as
`none`. -/
def get_square_number (row col : ℤ) : Option ℤ :=
  if !is_dark_square row col then none
  else
    let dark_squares_in_row := ((List.range 8).map (fun c => (c : ℤ))).filter
      (fun c => is_dark_square row c)
    match dark_squares_in_row.findIdx? (fun c => c == col) with
    | some i => some (row * 4 + (i : ℤ) + 1)
    | none => none

/-- `CLI._square_num_to_pos` from `interface_cli.py`: invert the notation
number.  Python's floor division and modulus are `Int.fdiv` / `Int.fmod`. -/
def square_num_to_pos (num : ℤ) : ℤ × ℤ :=
  let row := (num - 1).fdiv 4
  let pos_in_row := (num - 1).fmod 4
  if row.fmod 2 == 0 then (row, pos_in_row * 2 + 1)
  else (row, pos_in_row * 2)

/-- `Move` from `game_logic.py`: origin, destination, ordered captured
squares. -/
structure Move where
  from_pos : ℤ × ℤ
  to_pos : ℤ × ℤ
  captured_pieces : List (ℤ × ℤ)
deriving DecidableEq, Repr

/-- `Move.is_capture`: `len(captured_pieces) > 0`. -/
def Move.is_capture (m : Move) : Bool :=
  decide (0 < m.captured_pieces.length)

/-- One forward-diagonal jump attempt for a Man (the body of the `for dc`
loop of `GameLogic._get_man_capture_moves`): the adjacent cell in the
chosen diagonal must hold an opposing piece not already captured in the
chain, and the cell beyond it must be on-board and empty; returns the
enemy square and the landing square. -/
def manCapDir (b : Board) (row col : ℤ) (piece : Piece) (direction : ℤ)
    (captured_so_far : List (ℤ × ℤ)) (dc : ℤ) : Option ((ℤ × ℤ) × (ℤ × ℤ)) :=
  let enemy_row := row + direction
  let enemy_col := col + dc
  let land_row := row + 2 * direction
  let land_col := col + 2 * dc
  if is_valid_position enemy_row enemy_col && is_valid_position land_row land_col then
    match get_piece b enemy_row enemy_col with
    | some enemy =>
      if enemy.player != piece.player && (get_piece b land_row land_col == none) &&
          !(decide ((enemy_row, enemy_col) ∈ captured_so_far)) then
        some ((enemy_row, enemy_col), (land_row, land_col))
      else none
    | none => none
  else none

/-- The diagonal scan of `GameLogic._get_king_capture_moves` (`for distance
in range(1, board.size)`): walk outward from `distance`, passing through
empty squares and squares already captured in the chain, stopping at the
first piece not in the chain; that piece is returned with its distance when
it is an opponent's, otherwise the direction yields nothing.  `fuel` counts
the remaining loop iterations (7 at the initial call). -/
def kingScan (b : Board) (piece : Piece) (captured_so_far : List (ℤ × ℤ))
    (row col dr dc : ℤ) : ℕ → ℕ → Option ((ℤ × ℤ) × ℕ)
  | 0, _ => none
  | fuel + 1, distance =>
    let check_row := row + dr * distance
    let check_col := col + dc * distance
    if is_valid_position check_row check_col then
      match get_piece b check_row check_col with
      | some target =>
        if target.player != piece.player && !(decide ((check_row, check_col) ∈ captured_so_far)) then
          some ((check_row, check_col), distance)
        else if decide ((check_row, check_col) ∈ captured_so_far) then
          kingScan b piece captured_so_far row col dr dc fuel (distance + 1)
        else none
      | none => kingScan b piece captured_so_far row col dr dc fuel (distance + 1)
    else none

/-- One jump attempt for a King in a fixed diagonal direction (the body of
the direction loop of `GameLogic._get_king_capture_moves`): find the first
piece not in the chain via `kingScan`; the King lands exactly one square
beyond it, provided that square is on-board and empty. -/
def kingCapDir (b : Board) (row col : ℤ) (piece : Piece)
    (captured_so_far : List (ℤ × ℤ)) (dr dc : ℤ) : Option ((ℤ × ℤ) × (ℤ × ℤ)) :=
  match kingScan b piece captured_so_far row col dr dc 7 1 with
  | some (enemy_pos, enemy_distance) =>
    let land_distance : ℕ := enemy_distance + 1
    let land_row := row + dr * land_distance
    let land_col := col + dc * land_distance
    if is_valid_position land_row land_col then
      match get_piece b land_row land_col with
      | none => some (enemy_pos, (land_row, land_col))
      | some _ => none
    else none
  | none => none

/-- `true` on squares holding an opposing piece that is not in the list of
already-captured squares; used only as a termination measure. -/
def enemy_not_captured (b : Board) (piece : Piece) (caps : List (ℤ × ℤ))
    (s : ℤ × ℤ) : Bool :=
  (match get_piece b s.1 s.2 with
   | some t => t.player != piece.player
   | none => false) && !(decide (s ∈ caps))

/-- Number of board squares holding an opposing piece not yet captured in
the chain; each jump strictly decreases it. -/
def remainingEnemies (b : Board) (piece : Piece) (caps : List (ℤ × ℤ)) : ℕ :=
  (((Finset.range 8) ×ˢ (Finset.range 8)).filter
    (fun p => enemy_not_captured b piece caps ((p.1 : ℤ), (p.2 : ℤ)) = true)).card

lemma manCapDir_some {b : Board} {row col : ℤ} {piece : Piece} {direction : ℤ}
    {caps : List (ℤ × ℤ)} {dc : ℤ} {e land : ℤ × ℤ}
    (h : manCapDir b row col piece direction caps dc = some (e, land)) :
    is_valid_position e.1 e.2 = true ∧
    (∃ t, get_piece b e.1 e.2 = some t ∧ t.player ≠ piece.player) ∧
    e ∉ caps ∧
    e = (row + direction, col + dc) ∧ land = (row + 2 * direction, col + 2 * dc) ∧
    is_valid_position land.1 land.2 = true ∧ get_piece b land.1 land.2 = none := by
  unfold manCapDir at h
  dsimp only at h
  split at h
  case isTrue hvalid =>
    rw [Bool.and_eq_true] at hvalid
    split at h
    case h_1 enemy henemy =>
      split at h
      case isTrue hcond =>
        rw [Bool.and_eq_true, Bool.and_eq_true, bne_iff_ne, beq_iff_eq,
          Bool.not_eq_true', decide_eq_false_iff_not] at hcond
        obtain ⟨rfl, rfl⟩ : e = (row + direction, col + dc) ∧
            land = (row + 2 * direction, col + 2 * dc) := by
          injection h with h2
          injection h2 with ha hb
          exact ⟨ha.symm, hb.symm⟩
        exact ⟨hvalid.1, ⟨enemy, henemy, hcond.1.1⟩, hcond.2, rfl, rfl,
          hvalid.2, hcond.1.2⟩
      case isFalse => exact absurd h (by simp)
    case h_2 => exact absurd h (by simp)
  case isFalse => exact absurd h (by simp)

lemma kingScan_some {b : Board} {piece : Piece} {caps : List (ℤ × ℤ)}
    {row col dr dc : ℤ} :
    ∀ {fuel distance : ℕ} {e : ℤ × ℤ} {d : ℕ},
    kingScan b piece caps row col dr dc fuel distance = some (e, d) →
    is_valid_position e.1 e.2 = true ∧
    (∃ t, get_piece b e.1 e.2 = some t ∧ t.player ≠ piece.player) ∧
    e ∉ caps := by
  intro fuel
  induction fuel with
  | zero => intro distance e d h; exact absurd h (by simp [kingScan])
  | succ n ih =>
    intro distance e d h
    unfold kingScan at h
    dsimp only at h
    split at h
    case isTrue hvalid =>
      split at h
      case h_1 target htarget =>
        split at h
        case isTrue hcond =>
          rw [Bool.and_eq_true, bne_iff_ne, Bool.not_eq_true', decide_eq_false_iff_not] at hcond
          obtain rfl : e = (row + dr * distance, col + dc * distance) := by
            injection h with h2
            injection h2 with ha hb
            exact ha.symm
          exact ⟨hvalid, ⟨target, htarget, hcond.1⟩, hcond.2⟩
        case isFalse =>
          split at h
          case isTrue => exact ih h
          case isFalse => exact absurd h (by simp)
      case h_2 => exact ih h
    case isFalse => exact absurd h (by simp)

lemma kingCapDir_some {b : Board} {row col : ℤ} {piece : Piece}
    {caps : List (ℤ × ℤ)} {dr dc : ℤ} {e land : ℤ × ℤ}
    (h : kingCapDir b row col piece caps dr dc = some (e, land)) :
    is_valid_position e.1 e.2 = true ∧
    (∃ t, get_piece b e.1 e.2 = some t ∧ t.player ≠ piece.player) ∧
    e ∉ caps := by
  unfold kingCapDir at h
  dsimp only at h
  split at h
  case h_1 enemy_pos enemy_distance hscan =>
    split at h
    case isTrue =>
      split at h
      case h_1 =>
        obtain rfl : e = enemy_pos := by
          injection h with h2
          injection h2 with ha hb
          exact ha.symm
        exact kingScan_some hscan
      case h_2 => exact absurd h (by simp)
    case isFalse => exact absurd h (by simp)
  case h_2 => exact absurd h (by simp)

lemma remainingEnemies_lt (b : Board) (piece : Piece) (caps : List (ℤ × ℤ))
    (e : ℤ × ℤ)
    (hvalid : is_valid_position e.1 e.2 = true)
    (henemy : ∃ t, get_piece b e.1 e.2 = some t ∧ t.player ≠ piece.player)
    (hnot : e ∉ caps) :
    remainingEnemies b piece (caps ++ [e]) < remainingEnemies b piece caps := by
  classical
  have hb : 0 ≤ e.1 ∧ e.1 < 8 ∧ 0 ≤ e.2 ∧ e.2 < 8 := by
    simp only [is_valid_position, Bool.and_eq_true, decide_eq_true_eq] at hvalid
    exact ⟨hvalid.1.1.1, hvalid.1.1.2, hvalid.1.2, hvalid.2⟩
  have h1a : (e.1.toNat : ℤ) = e.1 := Int.toNat_of_nonneg hb.1
  have h1b : (e.2.toNat : ℤ) = e.2 := Int.toNat_of_nonneg hb.2.2.1
  apply Finset.card_lt_card
  rw [Finset.ssubset_iff_of_subset]
  · refine ⟨(e.1.toNat, e.2.toNat), ?_, ?_⟩
    · refine Finset.mem_filter.2 ⟨?_, ?_⟩
      · refine Finset.mem_product.2 ⟨?_, ?_⟩
        · exact Finset.mem_range.2 (by omega)
        · exact Finset.mem_range.2 (by omega)
      · obtain ⟨t, ht, htp⟩ := henemy
        simp only [enemy_not_captured]
        rw [h1a, h1b, ht, Bool.and_eq_true, bne_iff_ne, Bool.not_eq_true',
          decide_eq_false_iff_not]
        refine ⟨htp, ?_⟩
        simpa [h1a, h1b] using hnot
    · intro hmem
      have h2 := (Finset.mem_filter.1 hmem).2
      simp only [enemy_not_captured] at h2
      rw [h1a, h1b, Bool.and_eq_true] at h2
      have h3 := h2.2
      rw [Bool.not_eq_true', decide_eq_false_iff_not] at h3
      exact h3 (by simp)
  · intro x hx
    rw [Finset.mem_filter] at hx ⊢
    refine ⟨hx.1, ?_⟩
    have h2 := hx.2
    simp only [enemy_not_captured, Bool.and_eq_true, Bool.not_eq_true',
      decide_eq_false_iff_not] at h2 ⊢
    refine ⟨h2.1, ?_⟩
    intro hmem
    exact h2.2 (by simp [hmem])

/-- `GameLogic._get_man_capture_moves`: multi-jump capture enumeration for a
Man.  For each forward-diagonal direction with a legal jump, recurse from
the landing square with the capture accumulated; keep the extended chains
when the recursion yields any, otherwise emit the accumulated chain as one
`Move` from the original square to this landing square. -/
def _get_man_capture_moves (b : Board) (row col : ℤ) (piece : Piece)
    (direction : ℤ) (captured_so_far : List (ℤ × ℤ)) (original_pos : ℤ × ℤ) :
    List Move :=
  (match h : manCapDir b row col piece direction captured_so_far (-1) with
   | some eland =>
     let new_captured := captured_so_far ++ [eland.1]
     let next_captures := _get_man_capture_moves b eland.2.1 eland.2.2 piece
       direction new_captured original_pos
     if next_captures = [] then [⟨original_pos, eland.2, new_captured⟩]
     else next_captures
   | none => []) ++
  (match h : manCapDir b row col piece direction captured_so_far 1 with
   | some eland =>
     let new_captured := captured_so_far ++ [eland.1]
     let next_captures := _get_man_capture_moves b eland.2.1 eland.2.2 piece
       direction new_captured original_pos
     if next_captures = [] then [⟨original_pos, eland.2, new_captured⟩]
     else next_captures
   | none => [])
termination_by remainingEnemies b piece captured_so_far
decreasing_by
  · obtain ⟨hv, ht, hn, _⟩ := manCapDir_some h
    exact remainingEnemies_lt b piece captured_so_far eland.1 hv ht hn
  · obtain ⟨hv, ht, hn, _⟩ := manCapDir_some h
    exact remainingEnemies_lt b piece captured_so_far eland.1 hv ht hn

/-- `GameLogic._get_king_capture_moves`: multi-jump capture enumeration for
a flying King over the four diagonal directions, with squares already in
the chain treated as pass-through by `kingScan`. -/
def _get_king_capture_moves (b : Board) (row col : ℤ) (piece : Piece)
    (captured_so_far : List (ℤ × ℤ)) (original_pos : ℤ × ℤ) : List Move :=
  (match h : kingCapDir b row col piece captured_so_far (-1) (-1) with
   | some eland =>
     let new_captured := captured_so_far ++ [eland.1]
     let next_captures := _get_king_capture_moves b eland.2.1 eland.2.2 piece
       new_captured original_pos
     if next_captures = [] then [⟨original_pos, eland.2, new_captured⟩]
     else next_captures
   | none => []) ++
  (match h : kingCapDir b row col piece captured_so_far (-1) 1 with
   | some eland =>
     let new_captured := captured_so_far ++ [eland.1]
     let next_captures := _get_king_capture_moves b eland.2.1 eland.2.2 piece
       new_captured original_pos
     if next_captures = [] then [⟨original_pos, eland.2, new_captured⟩]
     else next_captures
   | none => []) ++
  (match h : kingCapDir b row col piece captured_so_far 1 (-1) with
   | some eland =>
     let new_captured := captured_so_far ++ [eland.1]
     let next_captures := _get_king_capture_moves b eland.2.1 eland.2.2 piece
       new_captured original_pos
     if next_captures = [] then [⟨original_pos, eland.2, new_captured⟩]
     else next_captures
   | none => []) ++
  (match h : kingCapDir b row col piece captured_so_far 1 1 with
   | some eland =>
     let new_captured := captured_so_far ++ [eland.1]
     let next_captures := _get_king_capture_moves b eland.2.1 eland.2.2 piece
       new_captured original_pos
     if next_captures = [] then [⟨original_pos, eland.2, new_captured⟩]
     else next_captures
   | none => [])
termination_by remainingEnemies b piece captured_so_far
decreasing_by
  all_goals
    obtain ⟨hv, ht, hn⟩ := kingCapDir_some h
    exact remainingEnemies_lt b piece captured_so_far eland.1 hv ht hn

/-- One quiet-move attempt for a Man (the body of the quiet-move loop in
`GameLogic._get_man_moves`): one diagonal step forward into an empty
on-board square. -/
def manQuietDir (b : Board) (row col direction dc : ℤ) : List Move :=
  let new_row := row + direction
  let new_col := col + dc
  if is_valid_position new_row new_col then
    match get_piece b new_row new_col with
    | none => [⟨(row, col), (new_row, new_col), []⟩]
    | some _ => []
  else []

/-- The Man movement direction of `GameLogic._get_man_moves`:
`-1 if piece.player == Player.WHITE else 1`. -/
def man_direction (piece : Piece) : ℤ :=
  if piece.player == Player.WHITE then -1 else 1

/-- `GameLogic._get_man_moves`: capture moves if any exist, otherwise the
quiet forward-diagonal steps (direction −1 for WHITE, +1 for BLACK). -/
def _get_man_moves (b : Board) (row col : ℤ) (piece : Piece) : List Move :=
  let direction : ℤ := man_direction piece
  let capture_moves := _get_man_capture_moves b row col piece direction [] (row, col)
  if capture_moves ≠ [] then capture_moves
  else manQuietDir b row col direction (-1) ++ manQuietDir b row col direction 1

/-- The flying quiet-move walk of `GameLogic._get_king_moves` in one
diagonal direction: emit a quiet move to each empty square until the edge
or an occupied square.  `fuel` counts the remaining loop iterations (7 at
the initial call, for `range(1, board.size)`). -/
def kingQuietDir (b : Board) (row col dr dc : ℤ) : ℕ → ℕ → List Move
  | 0, _ => []
  | fuel + 1, distance =>
    let new_row := row + dr * distance
    let new_col := col + dc * distance
    if is_valid_position new_row new_col then
      match get_piece b new_row new_col with
      | none => ⟨(row, col), (new_row, new_col), []⟩ ::
          kingQuietDir b row col dr dc fuel (distance + 1)
      | some _ => []
    else []

/-- `GameLogic._get_king_moves`: capture moves if any exist, otherwise the
flying quiet moves in the four diagonal directions. -/
def _get_king_moves (b : Board) (row col : ℤ) (piece : Piece) : List Move :=
  let capture_moves := _get_king_capture_moves b row col piece [] (row, col)
  if capture_moves ≠ [] then capture_moves
  else
    kingQuietDir b row col (-1) (-1) 7 1 ++ kingQuietDir b row col (-1) 1 7 1 ++
    kingQuietDir b row col 1 (-1) 7 1 ++ kingQuietDir b row col 1 1 7 1

/-- `GameLogic.get_valid_moves`: per-piece enumeration, dispatching on the
piece kind at the square. -/
def get_valid_moves (b : Board) (row col : ℤ) : List Move :=
  match get_piece b row col with
  | none => []
  | some piece =>
    if piece.is_king then _get_king_moves b row col piece
    else _get_man_moves b row col piece

/-- The `all_moves` union built by `GameLogic.get_all_valid_moves` before
its mandatory-capture filter: per-piece enumerations over every piece the
player owns. -/
def all_piece_moves (b : Board) (player : Player) : List Move :=
  (get_all_pieces b player).flatMap (fun rcp => get_valid_moves b rcp.1 rcp.2.1)

/-- `GameLogic.get_all_valid_moves`: the union of per-piece moves, reduced
to its capture moves when any exist (mandatory capture). -/
def get_all_valid_moves (b : Board) (player : Player) : List Move :=
  let all_moves := all_piece_moves b player
  let capture_moves := all_moves.filter Move.is_capture
  if capture_moves ≠ [] then capture_moves else all_moves

/-- `GameLogic.execute_move`: relocate the piece, then remove every
captured square; the Python method always returns `True`.  The mutated
board and the returned Boolean are paired. -/
def execute_move (b : Board) (move : Move) : Board × Bool :=
  let b1 := move_piece b move.from_pos.1 move.from_pos.2 move.to_pos.1 move.to_pos.2
  let b2 := move.captured_pieces.foldl (fun bd s => remove_piece bd s.1 s.2) b1
  (b2, true)

/-- `GameLogic.is_game_over`: a side with zero pieces loses immediately;
otherwise WHITE with no moves loses, then BLACK with no moves loses,
otherwise the game continues. -/
def is_game_over (b : Board) : Bool × Option Player :=
  let white_pieces := count_pieces b Player.WHITE
  let black_pieces := count_pieces b Player.BLACK
  if white_pieces = 0 then (true, some Player.BLACK)
  else if black_pieces = 0 then (true, some Player.WHITE)
  else
    let white_moves := get_all_valid_moves b Player.WHITE
    let black_moves := get_all_valid_moves b Player.BLACK
    if white_moves = [] then (true, some Player.BLACK)
    else if black_moves = [] then (true, some Player.WHITE)
    else (false, none)

/-- Scores of `ai_minimax.py` with Python's `-math.inf` / `math.inf`
sentinels: a rational, or one of the two infinities. -/
inductive XQ where
  | negInf
  | fin (q : ℚ)
  | posInf
deriving DecidableEq, Repr

/-- Strict `<` on scores, as Python compares floats with the infinities. -/
def XQ.lt : XQ → XQ → Bool
  | _, negInf => false
  | posInf, _ => false
  | negInf, _ => true
  | fin a, fin b => decide (a < b)
  | fin _, posInf => true

/-- `≤` on scores. -/
def XQ.le (a b : XQ) : Bool := !XQ.lt b a

/-- Python `max` (the first argument on ties). -/
def XQ.max (a b : XQ) : XQ := if XQ.lt a b then b else a

/-- Python `min` (the first argument on ties). -/
def XQ.min (a b : XQ) : XQ := if XQ.lt b a then b else a

/-- `evaluate` from `ai_minimax.py`: material (1 per Man, 3 per King) plus a
0.5-per-row advance bonus for Men, for each side, plus 0.1 × mobility
difference; perspective score minus opponent score. -/
def evaluate (b : Board) (ai_player : Player) : ℚ :=
  let opponent := ai_player.opp
  let ai_score : ℚ := (get_all_pieces b ai_player).foldl (fun acc rcp =>
    if rcp.2.2.is_king then acc + 3
    else
      let advanced_rows : ℤ := if ai_player == Player.WHITE then 7 - rcp.1 else rcp.1
      acc + 1 + (advanced_rows : ℚ) * (1 / 2)) 0
  let opp_score : ℚ := (get_all_pieces b opponent).foldl (fun acc rcp =>
    if rcp.2.2.is_king then acc + 3
    else
      let advanced_rows : ℤ := if opponent == Player.WHITE then 7 - rcp.1 else rcp.1
      acc + 1 + (advanced_rows : ℚ) * (1 / 2)) 0
  let ai_moves := (get_all_valid_moves b ai_player).length
  let opp_moves := (get_all_valid_moves b opponent).length
  let mobility : ℚ := ((ai_moves : ℚ) - (opp_moves : ℚ)) * (1 / 10)
  ai_score - opp_score + mobility

/-- The maximizing sibling loop of `minimax`, with alpha updates and the
beta-cutoff `break`; `f` is the recursive evaluation of a child, given the
current alpha and beta. -/
def maxLoop (f : XQ → XQ → Move → XQ) : List Move → XQ → XQ → XQ → XQ
  | [], max_eval, _, _ => max_eval
  | move :: rest, max_eval, alpha, beta =>
    let val := f alpha beta move
    let max_eval2 := XQ.max max_eval val
    let alpha2 := XQ.max alpha val
    if XQ.le beta alpha2 then max_eval2
    else maxLoop f rest max_eval2 alpha2 beta

/-- The minimizing sibling loop of `minimax`, with beta updates and the
cutoff `break`. -/
def minLoop (f : XQ → XQ → Move → XQ) : List Move → XQ → XQ → XQ → XQ
  | [], min_eval, _, _ => min_eval
  | move :: rest, min_eval, alpha, beta =>
    let val := f alpha beta move
    let min_eval2 := XQ.min min_eval val
    let beta2 := XQ.min beta val
    if XQ.le beta2 alpha then min_eval2
    else minLoop f rest min_eval2 alpha beta2

/-- `minimax` from `ai_minimax.py`: terminal scores (±(1000+depth) on a
decided game, 0 otherwise) checked before depth exhaustion, static
evaluation at depth 0 or with no legal moves, and the alpha-beta
maximizing/minimizing loops over children; each child board is an
independent copy (`copy.deepcopy` in Python, pure application here). -/
def minimax (b : Board) (depth : ℕ) (alpha beta : XQ) (maximizing : Bool)
    (ai_player : Player) : XQ :=
  let opponent := ai_player.opp
  let go := is_game_over b
  if go.1 then
    if go.2 = some ai_player then XQ.fin (1000 + (depth : ℚ))
    else if go.2 = some opponent then XQ.fin (-(1000 + (depth : ℚ)))
    else XQ.fin 0
  else if hd : depth = 0 then XQ.fin (evaluate b ai_player)
  else
    let current_player := if maximizing then ai_player else opponent
    let moves := get_all_valid_moves b current_player
    if moves = [] then XQ.fin (evaluate b ai_player)
    else if maximizing then
      maxLoop (fun a bt mv => minimax (execute_move b mv).1 (depth - 1) a bt false ai_player)
        moves XQ.negInf alpha beta
    else
      minLoop (fun a bt mv => minimax (execute_move b mv).1 (depth - 1) a bt true ai_player)
        moves XQ.posInf alpha beta
termination_by depth
decreasing_by
  all_goals omega

/-- The root selection loop of `get_best_move`: keep the first strict
improvement over the running best value. -/
def bestLoop (f : Move → XQ) : List Move → Option Move → XQ → Option Move
  | [], best_move, _ => best_move
  | move :: rest, best_move, best_val =>
    let val := f move
    if XQ.lt best_val val then bestLoop f rest (some move) val
    else bestLoop f rest best_move best_val

/-- `get_best_move` from `ai_minimax.py`: no move when none is legal, the
unique legal move without searching, otherwise the root loop over the
minimizing child evaluations at `depth - 1` with infinite alpha-beta
window. -/
def get_best_move (b : Board) (player : Player) (depth : ℕ) : Option Move :=
  let moves := get_all_valid_moves b player
  if moves = [] then none
  else if moves.length = 1 then moves.head?
  else
    bestLoop (fun mv => minimax (execute_move b mv).1 (depth - 1) XQ.negInf XQ.posInf false player)
      moves none XQ.negInf

/-- The branch body shared by both direction arms of
`_get_man_capture_moves`, abstracted over the recursive continuation: on a
successful jump, recurse with the capture accumulated and either keep the
extended chains or emit the accumulated one. -/
def manCapBranch (b : Board) (piece : Piece) (direction : ℤ) (orig : ℤ × ℤ)
    (caps : List (ℤ × ℤ)) : Option ((ℤ × ℤ) × (ℤ × ℤ)) → List Move
  | some eland =>
    let new_captured := caps ++ [eland.1]
    let next_captures := _get_man_capture_moves b eland.2.1 eland.2.2 piece
      direction new_captured orig
    if next_captures = [] then [⟨orig, eland.2, new_captured⟩] else next_captures
  | none => []

/-- The branch body shared by the four direction arms of
`_get_king_capture_moves`. -/
def kingCapBranch (b : Board) (piece : Piece) (orig : ℤ × ℤ)
    (caps : List (ℤ × ℤ)) : Option ((ℤ × ℤ) × (ℤ × ℤ)) → List Move
  | some eland =>
    let new_captured := caps ++ [eland.1]
    let next_captures := _get_king_capture_moves b eland.2.1 eland.2.2 piece
      new_captured orig
    if next_captures = [] then [⟨orig, eland.2, new_captured⟩] else next_captures
  | none => []

/-- The champion selection performed by the root loop of `get_best_move`:
fold over the remaining moves, replacing the champion only on a strict
improvement. -/
def pickMax (f : Move → XQ) : List Move → Move → Move
  | [], c => c
  | mv :: rest, c =>
    if XQ.lt (f c) (f mv) then pickMax f rest mv else pickMax f rest c

/-- Modelled from the spec's root-selection sentence: "keep the
strict-improvement maximum (ties keep the first-seen move, i.e., move order
from enumeration is the tie-break)" — the first move, in enumeration order,
whose child value is greatest. -/
def spec_best_move (f : Move → XQ) (moves : List Move) : Option Move :=
  moves.find? (fun mv => moves.all (fun mv2 => XQ.le (f mv2) (f mv)))

/-- A chain of single forward jumps for a Man, as judged by `manCapDir`:
`ManJumpSeq b piece direction pos caps fin_pos fin_caps` holds when
repeatedly jumping from `pos` with captures accumulated onto `caps` (each
jumped square appended in order) can end at `fin_pos` with accumulated list
`fin_caps`. -/
inductive ManJumpSeq (b : Board) (piece : Piece) (direction : ℤ) :
    (ℤ × ℤ) → List (ℤ × ℤ) → (ℤ × ℤ) → List (ℤ × ℤ) → Prop where
  | refl (pos : ℤ × ℤ) (caps : List (ℤ × ℤ)) :
      ManJumpSeq b piece direction pos caps pos caps
  | step {pos : ℤ × ℤ} {caps : List (ℤ × ℤ)} {eland : (ℤ × ℤ) × (ℤ × ℤ)}
      {fin_pos : ℤ × ℤ} {fin_caps : List (ℤ × ℤ)} (dc : ℤ)
      (hdc : dc = -1 ∨ dc = 1)
      (hjump : manCapDir b pos.1 pos.2 piece direction caps dc = some eland)
      (hrest : ManJumpSeq b piece direction eland.2 (caps ++ [eland.1]) fin_pos fin_caps) :
      ManJumpSeq b piece direction pos caps fin_pos fin_caps

/-! Concrete pieces and boards used by witnesses and counterexamples. -/

def whiteMan : Piece := ⟨Player.WHITE, PieceType.MAN⟩
def blackMan : Piece := ⟨Player.BLACK, PieceType.MAN⟩
def whiteKing : Piece := ⟨Player.WHITE, PieceType.KING⟩

/-- An empty board. -/
def boardEmpty : Board := ⟨fun _ _ => none⟩

/-- A WHITE Man at (5,2) facing a BLACK Man at (4,1): one capture. -/
def boardCapture : Board :=
  ⟨fun r c =>
    if r = 5 ∧ c = 2 then some whiteMan
    else if r = 4 ∧ c = 1 then some blackMan
    else none⟩

/-- A lone WHITE Man at (5,2): two quiet moves, no capture. -/
def boardQuiet : Board :=
  ⟨fun r c => if r = 5 ∧ c = 2 then some whiteMan else none⟩

/-- A WHITE Man at (5,2) with BLACK Men at (4,1) and (2,1): a forced
two-jump chain (5,2) → (3,0) → (1,2). -/
def boardTwoJump : Board :=
  ⟨fun r c =>
    if r = 5 ∧ c = 2 then some whiteMan
    else if r = 4 ∧ c = 1 then some blackMan
    else if r = 2 ∧ c = 1 then some blackMan
    else none⟩

/-- A WHITE King at (7,0) with BLACK Men at (6,1) and (4,3) on the same
diagonal; with (6,1) already in the chain the scan must pass through it. -/
def boardKingChain : Board :=
  ⟨fun r c =>
    if r = 7 ∧ c = 0 then some whiteKing
    else if r = 6 ∧ c = 1 then some blackMan
    else if r = 4 ∧ c = 3 then some blackMan
    else none⟩

/-- A WHITE Man stuck on row 0 and a BLACK Man stuck on row 7: both sides
own a piece and neither has a legal move. -/
def boardBothBlocked : Board :=
  ⟨fun r c =>
    if r = 0 ∧ c = 1 then some whiteMan
    else if r = 7 ∧ c = 0 then some blackMan
    else none⟩

/-- A WHITE Man stuck on row 0 while a BLACK Man at (3,0) can move. -/
def boardWhiteBlocked : Board :=
  ⟨fun r c =>
    if r = 0 ∧ c = 1 then some whiteMan
    else if r = 3 ∧ c = 0 then some blackMan
    else none⟩

/-- A single BLACK Man at (3,0); WHITE has no pieces. -/
def boardOnlyBlack : Board :=
  ⟨fun r c => if r = 3 ∧ c = 0 then some blackMan else none⟩

/-- A WHITE Man at (5,2) and a BLACK Man at (2,1), far apart: both sides
have pieces and quiet moves, so the game is not over. -/
def boardTwoSides : Board :=
  ⟨fun r c =>
    if r = 5 ∧ c = 2 then some whiteMan
    else if r = 2 ∧ c = 1 then some blackMan
    else none⟩

/-- WHITE Men at (5,0) and (5,4), no BLACK pieces: three quiet root moves. -/
def boardThreeMoves : Board :=
  ⟨fun r c =>
    if r = 5 ∧ c = 0 then some whiteMan
    else if r = 5 ∧ c = 4 then some whiteMan
    else none⟩

/-- A lone WHITE Man at (5,0): exactly one legal move. -/
def boardOneMove : Board :=
  ⟨fun r c => if r = 5 ∧ c = 0 then some whiteMan else none⟩

/-- The illegal move used against `execute_move`: a bare relocation
(5,2) → (3,0) that is not produced by the generator on `boardQuiet`. -/
def illegalMove : Move := ⟨(5, 2), (3, 0), []⟩

/-- The two-jump chain Move produced on `boardTwoJump`. -/
def twoJumpMove : Move := ⟨(5, 2), (1, 2), [(4, 1), (2, 1)]⟩

/-- A WHITE Man one step from promotion at (1,2). -/
def boardPromo : Board :=
  ⟨fun r c => if r = 1 ∧ c = 2 then some whiteMan else none⟩

/-! A parallel, structurally recursive evaluation pipeline.  The chain
enumerators above recurse on a well-founded measure and therefore do not
reduce inside the kernel; the `…Ev` functions below are the same
algorithms driven by an explicit fuel counter (65 is enough, since a chain
can never capture more than the 64 board squares), together with — further
below — proved equivalence lemmas.  They exist only so that concrete
boards can be evaluated by `decide`. -/

/-- Fueled mirror of `_get_man_capture_moves`. -/
def manCapMovesEv : ℕ → Board → ℤ → ℤ → Piece → ℤ → List (ℤ × ℤ) → (ℤ × ℤ) → List Move
  | 0, _, _, _, _, _, _, _ => []
  | fuel + 1, b, row, col, piece, direction, caps, orig =>
    (match manCapDir b row col piece direction caps (-1) with
     | some eland =>
       let new_captured := caps ++ [eland.1]
       let next := manCapMovesEv fuel b eland.2.1 eland.2.2 piece direction new_captured orig
       if next = [] then [⟨orig, eland.2, new_captured⟩] else next
     | none => []) ++
    (match manCapDir b row col piece direction caps 1 with
     | some eland =>
       let new_captured := caps ++ [eland.1]
       let next := manCapMovesEv fuel b eland.2.1 eland.2.2 piece direction new_captured orig
       if next = [] then [⟨orig, eland.2, new_captured⟩] else next
     | none => [])

/-- Fueled mirror of `_get_king_capture_moves`. -/
def kingCapMovesEv : ℕ → Board → ℤ → ℤ → Piece → List (ℤ × ℤ) → (ℤ × ℤ) → List Move
  | 0, _, _, _, _, _, _ => []
  | fuel + 1, b, row, col, piece, caps, orig =>
    (match kingCapDir b row col piece caps (-1) (-1) with
     | some eland =>
       let new_captured := caps ++ [eland.1]
       let next := kingCapMovesEv fuel b eland.2.1 eland.2.2 piece new_captured orig
       if next = [] then [⟨orig, eland.2, new_captured⟩] else next
     | none => []) ++
    (match kingCapDir b row col piece caps (-1) 1 with
     | some eland =>
       let new_captured := caps ++ [eland.1]
       let next := kingCapMovesEv fuel b eland.2.1 eland.2.2 piece new_captured orig
       if next = [] then [⟨orig, eland.2, new_captured⟩] else next
     | none => []) ++
    (match kingCapDir b row col piece caps 1 (-1) with
     | some eland =>
       let new_captured := caps ++ [eland.1]
       let next := kingCapMovesEv fuel b eland.2.1 eland.2.2 piece new_captured orig
       if next = [] then [⟨orig, eland.2, new_captured⟩] else next
     | none => []) ++
    (match kingCapDir b row col piece caps 1 1 with
     | some eland =>
       let new_captured := caps ++ [eland.1]
       let next := kingCapMovesEv fuel b eland.2.1 eland.2.2 piece new_captured orig
       if next = [] then [⟨orig, eland.2, new_captured⟩] else next
     | none => [])

/-- Fueled mirror of `get_valid_moves`. -/
def getValidMovesEv (b : Board) (row col : ℤ) : List Move :=
  match get_piece b row col with
  | none => []
  | some piece =>
    if piece.is_king then
      let capture_moves := kingCapMovesEv 65 b row col piece [] (row, col)
      if capture_moves ≠ [] then capture_moves
      else
        kingQuietDir b row col (-1) (-1) 7 1 ++ kingQuietDir b row col (-1) 1 7 1 ++
        kingQuietDir b row col 1 (-1) 7 1 ++ kingQuietDir b row col 1 1 7 1
    else
      let direction := man_direction piece
      let capture_moves := manCapMovesEv 65 b row col piece direction [] (row, col)
      if capture_moves ≠ [] then capture_moves
      else manQuietDir b row col direction (-1) ++ manQuietDir b row col direction 1

/-- Fueled mirror of `get_all_valid_moves`. -/
def getAllValidMovesEv (b : Board) (player : Player) : List Move :=
  let all_moves := (get_all_pieces b player).flatMap
    (fun rcp => getValidMovesEv b rcp.1 rcp.2.1)
  let capture_moves := all_moves.filter Move.is_capture
  if capture_moves ≠ [] then capture_moves else all_moves

/-- Fueled mirror of `is_game_over`. -/
def isGameOverEv (b : Board) : Bool × Option Player :=
  let white_pieces := count_pieces b Player.WHITE
  let black_pieces := count_pieces b Player.BLACK
  if white_pieces = 0 then (true, some Player.BLACK)
  else if black_pieces = 0 then (true, some Player.WHITE)
  else
    let white_moves := getAllValidMovesEv b Player.WHITE
    let black_moves := getAllValidMovesEv b Player.BLACK
    if white_moves = [] then (true, some Player.BLACK)
    else if black_moves = [] then (true, some Player.WHITE)
    else (false, none)

/-! Unfolding and characterization lemmas for the recursive enumerators. -/

lemma man_cap_moves_unfold (b : Board) (row col : ℤ) (piece : Piece)
    (direction : ℤ) (caps : List (ℤ × ℤ)) (orig : ℤ × ℤ) :
    _get_man_capture_moves b row col piece direction caps orig =
      manCapBranch b piece direction orig caps
        (manCapDir b row col piece direction caps (-1)) ++
      manCapBranch b piece direction orig caps
        (manCapDir b row col piece direction caps 1) := by
  rw [_get_man_capture_moves.eq_def]
  congr 1
  · cases h : manCapDir b row col piece direction caps (-1) <;> simp [manCapBranch]
  · cases h : manCapDir b row col piece direction caps 1 <;> simp [manCapBranch]

lemma king_cap_moves_unfold (b : Board) (row col : ℤ) (piece : Piece)
    (caps : List (ℤ × ℤ)) (orig : ℤ × ℤ) :
    _get_king_capture_moves b row col piece caps orig =
      kingCapBranch b piece orig caps (kingCapDir b row col piece caps (-1) (-1)) ++
      kingCapBranch b piece orig caps (kingCapDir b row col piece caps (-1) 1) ++
      kingCapBranch b piece orig caps (kingCapDir b row col piece caps 1 (-1)) ++
      kingCapBranch b piece orig caps (kingCapDir b row col piece caps 1 1) := by
  rw [_get_king_capture_moves.eq_def]
  congr 1
  congr 1
  congr 1
  · cases h : kingCapDir b row col piece caps (-1) (-1) <;> simp [kingCapBranch]
  · cases h : kingCapDir b row col piece caps (-1) 1 <;> simp [kingCapBranch]
  · cases h : kingCapDir b row col piece caps 1 (-1) <;> simp [kingCapBranch]
  · cases h : kingCapDir b row col piece caps 1 1 <;> simp [kingCapBranch]

lemma manCapBranch_ne_nil (b : Board) (piece : Piece) (direction : ℤ)
    (orig : ℤ × ℤ) (caps : List (ℤ × ℤ)) (eland : (ℤ × ℤ) × (ℤ × ℤ)) :
    manCapBranch b piece direction orig caps (some eland) ≠ [] := by
  simp only [manCapBranch]
  split <;> simp_all

/-- The Man capture enumeration is empty exactly when neither forward
diagonal offers a jump. -/
lemma man_cap_moves_eq_nil (b : Board) (row col : ℤ) (piece : Piece)
    (direction : ℤ) (caps : List (ℤ × ℤ)) (orig : ℤ × ℤ) :
    _get_man_capture_moves b row col piece direction caps orig = [] ↔
      manCapDir b row col piece direction caps (-1) = none ∧
      manCapDir b row col piece direction caps 1 = none := by
  rw [man_cap_moves_unfold, List.append_eq_nil]
  constructor
  · rintro ⟨h1, h2⟩
    constructor
    · cases h : manCapDir b row col piece direction caps (-1) with
      | none => rfl
      | some eland => exact absurd h1 (h ▸ manCapBranch_ne_nil b piece direction orig caps eland)
    · cases h : manCapDir b row col piece direction caps 1 with
      | none => rfl
      | some eland => exact absurd h2 (h ▸ manCapBranch_ne_nil b piece direction orig caps eland)
  · rintro ⟨h1, h2⟩
    rw [h1, h2]
    exact ⟨rfl, rfl⟩

/-! Board cell lemmas. -/

lemma get_set_same (b : Board) (row col : ℤ) (p : Option Piece)
    (h : is_valid_position row col = true) :
    get_piece (set_piece b row col p) row col = p := by
  simp [get_piece, set_piece, h]

lemma get_set_other (b : Board) (row col r2 c2 : ℤ) (p : Option Piece)
    (h : ¬(r2 = row ∧ c2 = col)) :
    get_piece (set_piece b row col p) r2 c2 = get_piece b r2 c2 := by
  by_cases hv : is_valid_position row col = true
  · simp only [set_piece, if_pos hv, get_piece]
    by_cases hv2 : is_valid_position r2 c2 = true
    · simp [hv2, h]
    · simp [hv2]
  · simp [set_piece, hv]

/-! Order lemmas for the extended scores. -/

lemma XQ.lt_irrefl (a : XQ) : XQ.lt a a = false := by
  cases a <;> simp [XQ.lt]

lemma XQ.le_refl (a : XQ) : XQ.le a a = true := by
  simp [XQ.le, XQ.lt_irrefl]

lemma XQ.le_eq_not_lt (a b : XQ) : XQ.le a b = !XQ.lt b a := rfl

lemma XQ.lt_trans {a b c : XQ} (h1 : XQ.lt a b = true) (h2 : XQ.lt b c = true) :
    XQ.lt a c = true := by
  cases a <;> cases b <;> cases c <;> simp_all [XQ.lt] <;> linarith

lemma XQ.le_lt_trans {a b c : XQ} (h1 : XQ.le a b = true) (h2 : XQ.lt b c = true) :
    XQ.lt a c = true := by
  cases a <;> cases b <;> cases c <;> simp_all [XQ.le, XQ.lt] <;> linarith

lemma XQ.le_trans {a b c : XQ} (h1 : XQ.le a b = true) (h2 : XQ.le b c = true) :
    XQ.le a c = true := by
  cases a <;> cases b <;> cases c <;> simp_all [XQ.le, XQ.lt] <;> linarith

/-! The alpha-beta loops only produce finite scores when their children do. -/

lemma maxLoop_fin_acc (f : XQ → XQ → Move → XQ)
    (hf : ∀ a bt mv, ∃ q, f a bt mv = XQ.fin q) :
    ∀ (moves : List Move) (q0 : ℚ) (alpha beta : XQ),
    ∃ q, maxLoop f moves (XQ.fin q0) alpha beta = XQ.fin q := by
  intro moves
  induction moves with
  | nil => exact fun q0 alpha beta => ⟨q0, rfl⟩
  | cons mv rest ih =>
    intro q0 alpha beta
    obtain ⟨qv, hqv⟩ := hf alpha beta mv
    simp only [maxLoop, hqv]
    have hmax : XQ.max (XQ.fin q0) (XQ.fin qv) = XQ.fin (if q0 < qv then qv else q0) := by
      simp only [XQ.max, XQ.lt]
      split <;> split <;> simp_all
    rw [hmax]
    split
    · exact ⟨_, rfl⟩
    · exact ih _ _ _

lemma maxLoop_fin_start (f : XQ → XQ → Move → XQ)
    (hf : ∀ a bt mv, ∃ q, f a bt mv = XQ.fin q)
    (moves : List Move) (hne : moves ≠ []) (alpha beta : XQ) :
    ∃ q, maxLoop f moves XQ.negInf alpha beta = XQ.fin q := by
  cases moves with
  | nil => exact absurd rfl hne
  | cons mv rest =>
    obtain ⟨qv, hqv⟩ := hf alpha beta mv
    simp only [maxLoop, hqv]
    have hmax : XQ.max XQ.negInf (XQ.fin qv) = XQ.fin qv := by
      simp [XQ.max, XQ.lt]
    rw [hmax]
    split
    · exact ⟨_, rfl⟩
    · exact maxLoop_fin_acc f hf rest qv _ _

lemma minLoop_fin_acc (f : XQ → XQ → Move → XQ)
    (hf : ∀ a bt mv, ∃ q, f a bt mv = XQ.fin q) :
    ∀ (moves : List Move) (q0 : ℚ) (alpha beta : XQ),
    ∃ q, minLoop f moves (XQ.fin q0) alpha beta = XQ.fin q := by
  intro moves
  induction moves with
  | nil => exact fun q0 alpha beta => ⟨q0, rfl⟩
  | cons mv rest ih =>
    intro q0 alpha beta
    obtain ⟨qv, hqv⟩ := hf alpha beta mv
    simp only [minLoop, hqv]
    have hmin : XQ.min (XQ.fin q0) (XQ.fin qv) = XQ.fin (if qv < q0 then qv else q0) := by
      simp only [XQ.min, XQ.lt]
      split <;> split <;> simp_all
    rw [hmin]
    split
    · exact ⟨_, rfl⟩
    · exact ih _ _ _

lemma minLoop_fin_start (f : XQ → XQ → Move → XQ)
    (hf : ∀ a bt mv, ∃ q, f a bt mv = XQ.fin q)
    (moves : List Move) (hne : moves ≠ []) (alpha beta : XQ) :
    ∃ q, minLoop f moves XQ.posInf alpha beta = XQ.fin q := by
  cases moves with
  | nil => exact absurd rfl hne
  | cons mv rest =>
    obtain ⟨qv, hqv⟩ := hf alpha beta mv
    simp only [minLoop, hqv]
    have hmin : XQ.min XQ.posInf (XQ.fin qv) = XQ.fin qv := by
      simp [XQ.min, XQ.lt]
    rw [hmin]
    split
    · exact ⟨_, rfl⟩
    · exact minLoop_fin_acc f hf rest qv _ _

/-- Every minimax value is a finite rational (the infinities are only loop
sentinels). -/
lemma minimax_fin :
    ∀ (depth : ℕ) (b : Board) (alpha beta : XQ) (maximizing : Bool)
      (ai_player : Player),
    ∃ q, minimax b depth alpha beta maximizing ai_player = XQ.fin q := by
  intro depth
  induction depth using Nat.strong_induction_on with
  | _ depth ih =>
    intro b alpha beta maximizing ai_player
    rw [minimax.eq_def]
    dsimp only
    split
    · split
      · exact ⟨_, rfl⟩
      · split
        · exact ⟨_, rfl⟩
        · exact ⟨_, rfl⟩
    · split
      · exact ⟨_, rfl⟩
      · rename_i hover hd
        split
        case isTrue hmaxi =>
          split
          · exact ⟨_, rfl⟩
          · rename_i hne
            exact maxLoop_fin_start _
              (fun a bt mv => ih (depth - 1) (by omega) _ a bt false ai_player) _ hne alpha beta
        case isFalse hmaxi =>
          split
          · exact ⟨_, rfl⟩
          · rename_i hne
            exact minLoop_fin_start _
              (fun a bt mv => ih (depth - 1) (by omega) _ a bt true ai_player) _ hne alpha beta

lemma XQ.le_of_lt {a b : XQ} (h : XQ.lt a b = true) : XQ.le a b = true := by
  cases a <;> cases b <;> simp_all [XQ.le, XQ.lt] <;> linarith

lemma XQ.lt_le_trans {a b c : XQ} (h1 : XQ.lt a b = true) (h2 : XQ.le b c = true) :
    XQ.lt a c = true := by
  cases a <;> cases b <;> cases c <;> simp_all [XQ.le, XQ.lt] <;> linarith

lemma XQ.lt_of_le_eq_false {a b : XQ} (h : XQ.le a b = false) : XQ.lt b a = true := by
  rw [XQ.le_eq_not_lt] at h
  cases h2 : XQ.lt b a
  · rw [h2] at h; exact absurd h (by simp)
  · rfl

lemma XQ.le_of_lt_eq_false {a b : XQ} (h : XQ.lt a b = false) : XQ.le b a = true := by
  rw [XQ.le_eq_not_lt, h]; rfl

/-! The root selection loop equals the first-seen-maximum selection. -/

lemma bestLoop_eq_pickMax (f : Move → XQ) :
    ∀ (rest : List Move) (c : Move),
    bestLoop f rest (some c) (f c) = some (pickMax f rest c) := by
  intro rest
  induction rest with
  | nil => intro c; rfl
  | cons mv rest2 ih =>
    intro c
    simp only [bestLoop, pickMax]
    split
    · exact ih mv
    · exact ih c

lemma find_congr_mem {p q : Move → Bool} :
    ∀ {l : List Move}, (∀ x ∈ l, p x = q x) → l.find? p = l.find? q := by
  intro l
  induction l with
  | nil => intro _; rfl
  | cons a l2 ih =>
    intro h
    simp only [List.find?]
    rw [h a (by simp)]
    split
    · rfl
    · exact ih (fun x hx => h x (by simp [hx]))

lemma pickMax_const (f : Move → XQ) :
    ∀ (rest : List Move) (c : Move),
    (∀ y ∈ rest, XQ.le (f y) (f c) = true) → pickMax f rest c = c := by
  intro rest
  induction rest with
  | nil => intro c _; rfl
  | cons mv rest2 ih =>
    intro c h
    have h1 : XQ.lt (f c) (f mv) = false := by
      have h2 := h mv (by simp)
      rw [XQ.le_eq_not_lt] at h2
      cases h3 : XQ.lt (f c) (f mv)
      · rfl
      · rw [h3] at h2; exact absurd h2 (by simp)
    simp only [pickMax, h1]
    exact ih c (fun y hy => h y (by simp [hy]))

lemma pickMax_eq_find (f : Move → XQ) :
    ∀ (rest : List Move) (c : Move),
    (c :: rest).find? (fun mv => (c :: rest).all (fun mv2 => XQ.le (f mv2) (f mv))) =
      some (pickMax f rest c) := by
  intro rest
  induction rest with
  | nil =>
    intro c
    simp [pickMax, List.find?, XQ.le_refl]
  | cons mv rest2 ih =>
    intro c
    by_cases hlt : XQ.lt (f c) (f mv) = true
    · have hpredc : ((c :: mv :: rest2).all fun mv2 => XQ.le (f mv2) (f c)) = false := by
        apply List.all_eq_false.2
        refine ⟨mv, by simp, ?_⟩
        rw [XQ.le_eq_not_lt, hlt]
        simp
      rw [List.find?_cons_of_neg _ (by rw [hpredc]; simp)]
      rw [show pickMax f (mv :: rest2) c = pickMax f rest2 mv by simp [pickMax, hlt]]
      rw [← ih mv]
      apply find_congr_mem
      intro x hx
      simp only [List.all_cons]
      cases hmx : XQ.le (f mv) (f x) with
      | false => simp
      | true =>
        have hcx : XQ.le (f c) (f x) = true := XQ.le_of_lt (XQ.lt_le_trans hlt hmx)
        simp [hcx]
    · have hle : XQ.le (f mv) (f c) = true :=
        XQ.le_of_lt_eq_false (by cases h3 : XQ.lt (f c) (f mv) with
          | false => rfl
          | true => exact absurd h3 hlt)
      rw [show pickMax f (mv :: rest2) c = pickMax f rest2 c by simp [pickMax, hlt]]
      by_cases hpc : ((c :: mv :: rest2).all fun mv2 => XQ.le (f mv2) (f c)) = true
      · rw [List.find?_cons_of_pos _ (by rw [hpc])]
        have hconst : pickMax f rest2 c = c := by
          apply pickMax_const
          intro y hy
          exact List.all_eq_true.1 hpc y (by simp [hy])
        rw [hconst]
      · have hpcF : ((c :: mv :: rest2).all fun mv2 => XQ.le (f mv2) (f c)) = false := by
          cases h3 : (c :: mv :: rest2).all fun mv2 => XQ.le (f mv2) (f c)
          · rfl
          · exact absurd h3 hpc
        have hex : ∃ y ∈ rest2, XQ.le (f y) (f c) = false := by
          obtain ⟨y, hy, hyp⟩ := List.all_eq_false.1 hpcF
          have hyF : XQ.le (f y) (f c) = false := by
            cases h3 : XQ.le (f y) (f c)
            · rfl
            · exact absurd h3 hyp
          rcases List.mem_cons.1 hy with rfl | hy2
          · rw [XQ.le_refl] at hyF; exact absurd hyF (by simp)
          · rcases List.mem_cons.1 hy2 with rfl | hy3
            · rw [hle] at hyF; exact absurd hyF (by simp)
            · exact ⟨y, hy3, hyF⟩
        obtain ⟨y, hy, hyF⟩ := hex
        have hylt : XQ.lt (f c) (f y) = true := XQ.lt_of_le_eq_false hyF
        rw [List.find?_cons_of_neg _ (by rw [hpcF]; simp)]
        have hpmv : ((c :: mv :: rest2).all fun mv2 => XQ.le (f mv2) (f mv)) = false := by
          apply List.all_eq_false.2
          refine ⟨y, by simp [hy], ?_⟩
          have hmy : XQ.lt (f mv) (f y) = true := XQ.le_lt_trans hle hylt
          rw [XQ.le_eq_not_lt, hmy]
          simp
        rw [List.find?_cons_of_neg _ (by rw [hpmv]; simp)]
        have htarget := ih c
        have hpc2 : ((c :: rest2).all fun mv2 => XQ.le (f mv2) (f c)) = false := by
          apply List.all_eq_false.2
          refine ⟨y, by simp [hy], ?_⟩
          rw [XQ.le_eq_not_lt, hylt]
          simp
        rw [List.find?_cons_of_neg _ (by rw [hpc2]; simp)] at htarget
        rw [← htarget]
        apply find_congr_mem
        intro x hx
        simp only [List.all_cons]
        cases hcx : XQ.le (f c) (f x) with
        | false => simp
        | true =>
          have hmvx : XQ.le (f mv) (f x) = true := XQ.le_trans hle hcx
          simp [hmvx]

lemma nodup_append_singleton {caps : List (ℤ × ℤ)} {e : ℤ × ℤ}
    (hnd : caps.Nodup) (hnotin : e ∉ caps) : (caps ++ [e]).Nodup := by
  rw [List.nodup_append]
  refine ⟨hnd, List.nodup_singleton _, ?_⟩
  intro a ha hae
  rw [List.mem_singleton] at hae
  exact hnotin (hae ▸ ha)

/-- Soundness of the Man capture enumeration: every emitted move starts at
the original square, extends the accumulated capture list by a nonempty
duplicate-free suffix reached by a genuine jump sequence, and cannot be
extended by a further jump from its destination. -/
lemma man_cap_moves_sound (b : Board) :
    ∀ (row col : ℤ) (piece : Piece) (direction : ℤ) (caps : List (ℤ × ℤ))
      (orig : ℤ × ℤ) (mv : Move),
    mv ∈ _get_man_capture_moves b row col piece direction caps orig →
    mv.from_pos = orig ∧
    (∃ suffix, suffix ≠ [] ∧ mv.captured_pieces = caps ++ suffix) ∧
    (caps.Nodup → mv.captured_pieces.Nodup) ∧
    ManJumpSeq b piece direction (row, col) caps mv.to_pos mv.captured_pieces ∧
    manCapDir b mv.to_pos.1 mv.to_pos.2 piece direction mv.captured_pieces (-1) = none ∧
    manCapDir b mv.to_pos.1 mv.to_pos.2 piece direction mv.captured_pieces 1 = none := by
  intro row col piece direction caps orig
  induction row, col, piece, direction, caps, orig using _get_man_capture_moves.induct b with
  | _ row col piece direction caps orig ih1 ih2 =>
    intro mv hmv
    rw [man_cap_moves_unfold] at hmv
    rcases List.mem_append.1 hmv with hmem | hmem
    · cases hdir : manCapDir b row col piece direction caps (-1) with
      | none => rw [hdir] at hmem; simp [manCapBranch] at hmem
      | some eland =>
        rw [hdir] at hmem
        simp only [manCapBranch] at hmem
        obtain ⟨hvalid, henemy, hnotin, _⟩ := manCapDir_some hdir
        split at hmem
        case isTrue hnil =>
          have hmveq := List.mem_singleton.1 hmem
          subst hmveq
          have hmax := (man_cap_moves_eq_nil b eland.2.1 eland.2.2 piece direction
            (caps ++ [eland.1]) orig).1 hnil
          exact ⟨rfl, ⟨[eland.1], by simp, rfl⟩,
            fun hnd => nodup_append_singleton hnd hnotin,
            ManJumpSeq.step (-1) (Or.inl rfl) hdir (ManJumpSeq.refl _ _),
            hmax.1, hmax.2⟩
        case isFalse hnil =>
          obtain ⟨h1, ⟨suffix, hs1, hs2⟩, h3, h4, h5, h6⟩ := ih1 eland hdir mv hmem
          refine ⟨h1, ⟨[eland.1] ++ suffix, by simp, by rw [hs2]; simp⟩, ?_,
            ManJumpSeq.step (-1) (Or.inl rfl) hdir h4, h5, h6⟩
          intro hnd
          exact h3 (nodup_append_singleton hnd hnotin)
    · cases hdir : manCapDir b row col piece direction caps 1 with
      | none => rw [hdir] at hmem; simp [manCapBranch] at hmem
      | some eland =>
        rw [hdir] at hmem
        simp only [manCapBranch] at hmem
        obtain ⟨hvalid, henemy, hnotin, _⟩ := manCapDir_some hdir
        split at hmem
        case isTrue hnil =>
          have hmveq := List.mem_singleton.1 hmem
          subst hmveq
          have hmax := (man_cap_moves_eq_nil b eland.2.1 eland.2.2 piece direction
            (caps ++ [eland.1]) orig).1 hnil
          exact ⟨rfl, ⟨[eland.1], by simp, rfl⟩,
            fun hnd => nodup_append_singleton hnd hnotin,
            ManJumpSeq.step 1 (Or.inr rfl) hdir (ManJumpSeq.refl _ _),
            hmax.1, hmax.2⟩
        case isFalse hnil =>
          obtain ⟨h1, ⟨suffix, hs1, hs2⟩, h3, h4, h5, h6⟩ := ih2 eland hdir mv hmem
          refine ⟨h1, ⟨[eland.1] ++ suffix, by simp, by rw [hs2]; simp⟩, ?_,
            ManJumpSeq.step 1 (Or.inr rfl) hdir h4, h5, h6⟩
          intro hnd
          exact h3 (nodup_append_singleton hnd hnotin)

/-- Full characterization of the King diagonal scan: it returns the square
at distance `d` exactly when that square holds an uncaptured opposing
piece and every nearer square in the scanned window is on-board and either
empty or already captured in the chain (pass-through). -/
lemma kingScan_iff (b : Board) (piece : Piece) (caps : List (ℤ × ℤ))
    (row col dr dc : ℤ) :
    ∀ (fuel distance : ℕ) (e : ℤ × ℤ) (d : ℕ),
    kingScan b piece caps row col dr dc fuel distance = some (e, d) ↔
    (distance ≤ d ∧ d < distance + fuel ∧
     e = (row + dr * d, col + dc * d) ∧
     is_valid_position e.1 e.2 = true ∧
     (∃ t, get_piece b e.1 e.2 = some t ∧ t.player ≠ piece.player) ∧
     e ∉ caps ∧
     (∀ k : ℕ, distance ≤ k → k < d →
       is_valid_position (row + dr * k) (col + dc * k) = true ∧
       (get_piece b (row + dr * k) (col + dc * k) = none ∨
        (row + dr * k, col + dc * k) ∈ caps))) := by
  intro fuel
  induction fuel with
  | zero =>
    intro distance e d
    constructor
    · intro h; exact absurd h (by simp [kingScan])
    · rintro ⟨h1, h2, _⟩; omega
  | succ n ih =>
    intro distance e d
    simp only [kingScan]
    by_cases hval : is_valid_position (row + dr * (distance : ℤ)) (col + dc * (distance : ℤ)) = true
    case neg =>
      rw [if_neg hval]
      constructor
      · intro h; exact absurd h (by simp)
      · rintro ⟨h1, h2, h3, h4, h5, h6, h7⟩
        rcases Nat.lt_or_ge distance d with hlt | hge
        · exact absurd ((h7 distance le_rfl hlt).1) hval
        · have hde : d = distance := by omega
          subst hde
          rw [h3] at h4
          exact absurd h4 hval
    case pos =>
      rw [if_pos hval]
      cases hsq : get_piece b (row + dr * (distance : ℤ)) (col + dc * (distance : ℤ)) with
      | none =>
        rw [ih (distance + 1) e d]
        constructor
        · rintro ⟨h1, h2, h3, h4, h5, h6, h7⟩
          refine ⟨by omega, by omega, h3, h4, h5, h6, ?_⟩
          intro k hk1 hk2
          rcases Nat.eq_or_lt_of_le hk1 with rfl | hk3
          · exact ⟨hval, Or.inl hsq⟩
          · exact h7 k (by omega) hk2
        · rintro ⟨h1, h2, h3, h4, h5, h6, h7⟩
          have hne : d ≠ distance := by
            rintro rfl
            obtain ⟨t, ht, _⟩ := h5
            rw [h3] at ht
            rw [hsq] at ht
            exact absurd ht (by simp)
          refine ⟨by omega, by omega, h3, h4, h5, h6, ?_⟩
          intro k hk1 hk2
          exact h7 k (by omega) hk2
      | some target =>
        dsimp only
        by_cases hcond : (target.player != piece.player &&
            !(decide ((row + dr * (distance : ℤ), col + dc * (distance : ℤ)) ∈ caps))) = true
        case pos =>
          rw [if_pos hcond]
          rw [Bool.and_eq_true, bne_iff_ne, Bool.not_eq_true', decide_eq_false_iff_not] at hcond
          constructor
          · intro h
            have h2 := Option.some.inj h
            have he : e = (row + dr * (distance : ℤ), col + dc * (distance : ℤ)) :=
              (congrArg Prod.fst h2).symm
            have hd : d = distance := (congrArg Prod.snd h2).symm
            subst he
            subst hd
            refine ⟨le_rfl, by omega, rfl, hval, ⟨target, hsq, hcond.1⟩, hcond.2, ?_⟩
            intro k hk1 hk2
            omega
          · rintro ⟨h1, h2, h3, h4, h5, h6, h7⟩
            have hde : d = distance := by
              by_contra hne
              have hk := h7 distance le_rfl (by omega)
              rcases hk.2 with hnone | hin
              · rw [hsq] at hnone; exact absurd hnone (by simp)
              · exact hcond.2 hin
            subst hde
            rw [h3]
        case neg =>
          rw [if_neg hcond]
          by_cases hin : (decide ((row + dr * (distance : ℤ), col + dc * (distance : ℤ)) ∈ caps)) = true
          case pos =>
            rw [if_pos hin]
            rw [decide_eq_true_eq] at hin
            rw [ih (distance + 1) e d]
            constructor
            · rintro ⟨h1, h2, h3, h4, h5, h6, h7⟩
              refine ⟨by omega, by omega, h3, h4, h5, h6, ?_⟩
              intro k hk1 hk2
              rcases Nat.eq_or_lt_of_le hk1 with rfl | hk3
              · exact ⟨hval, Or.inr hin⟩
              · exact h7 k (by omega) hk2
            · rintro ⟨h1, h2, h3, h4, h5, h6, h7⟩
              have hne : d ≠ distance := by
                rintro rfl
                exact h6 (h3 ▸ hin)
              refine ⟨by omega, by omega, h3, h4, h5, h6, ?_⟩
              intro k hk1 hk2
              exact h7 k (by omega) hk2
          case neg =>
            rw [if_neg hin]
            rw [decide_eq_true_eq] at hin
            constructor
            · intro h; exact absurd h (by simp)
            · rintro ⟨h1, h2, h3, h4, h5, h6, h7⟩
              rw [Bool.and_eq_true] at hcond
              have hown : target.player = piece.player := by
                by_contra hne
                apply hcond
                constructor
                · rwa [bne_iff_ne]
                · rw [Bool.not_eq_true', decide_eq_false_iff_not]
                  exact fun hmem => hin hmem
              rcases Nat.eq_or_lt_of_le h1 with rfl | hlt
              · obtain ⟨t, ht, htp⟩ := h5
                rw [h3] at ht
                rw [hsq] at ht
                have h8 := Option.some.inj ht
                exact (htp (h8 ▸ hown)).elim
              · have hk := h7 distance le_rfl hlt
                rcases hk.2 with hnone | hmem
                · rw [hsq] at hnone; exact absurd hnone (by simp)
                · exact (hin hmem).elim

/-- Full characterization of a King jump attempt in one diagonal
direction: the scan finds the first uncaptured piece, every nearer square
is pass-through (empty or already captured in the chain), the found piece
is an opponent's, and the King lands exactly one square beyond it, that
square being on-board and empty. -/
lemma kingCapDir_iff (b : Board) (row col : ℤ) (piece : Piece)
    (caps : List (ℤ × ℤ)) (dr dc : ℤ) (e land : ℤ × ℤ)
    (hpos : is_valid_position row col = true) (hdr : dr = -1 ∨ dr = 1) :
    kingCapDir b row col piece caps dr dc = some (e, land) ↔
    (∃ d : ℕ, 1 ≤ d ∧
      e = (row + dr * d, col + dc * d) ∧
      land = (row + dr * ((d : ℤ) + 1), col + dc * ((d : ℤ) + 1)) ∧
      is_valid_position e.1 e.2 = true ∧
      (∃ t, get_piece b e.1 e.2 = some t ∧ t.player ≠ piece.player) ∧
      e ∉ caps ∧
      (∀ k : ℕ, 1 ≤ k → k < d →
        is_valid_position (row + dr * k) (col + dc * k) = true ∧
        (get_piece b (row + dr * k) (col + dc * k) = none ∨
         (row + dr * k, col + dc * k) ∈ caps)) ∧
      is_valid_position land.1 land.2 = true ∧
      get_piece b land.1 land.2 = none) := by
  have hcast : ∀ d : ℕ, ((d + 1 : ℕ) : ℤ) = (d : ℤ) + 1 := fun d => by push_cast; ring
  unfold kingCapDir
  constructor
  · intro h
    cases hscan : kingScan b piece caps row col dr dc 7 1 with
    | none => rw [hscan] at h; exact absurd h (by simp)
    | some ed =>
      rw [hscan] at h
      dsimp only at h
      obtain ⟨h1, h2, h3, h4, h5, h6, h7⟩ :=
        (kingScan_iff b piece caps row col dr dc 7 1 ed.1 ed.2).1 (by rw [hscan])
      split at h
      case isTrue hlv =>
        cases hlp : get_piece b (row + dr * ((ed.2 + 1 : ℕ) : ℤ)) (col + dc * ((ed.2 + 1 : ℕ) : ℤ)) with
        | some t => rw [hlp] at h; exact absurd h (by simp)
        | none =>
          rw [hlp] at h
          dsimp only at h
          have h8 := Option.some.inj h
          have he : e = ed.1 := (congrArg Prod.fst h8).symm
          have hl : land = (row + dr * ((ed.2 + 1 : ℕ) : ℤ), col + dc * ((ed.2 + 1 : ℕ) : ℤ)) :=
            (congrArg Prod.snd h8).symm
          refine ⟨ed.2, h1, he ▸ h3, ?_, he ▸ h4, he ▸ h5, he ▸ h6, h7, ?_, ?_⟩
          · rw [hl, hcast]
          · rw [hl]
            rw [hcast] at hlv ⊢
            exact hlv
          · rw [hl]
            rw [hcast] at hlp ⊢
            exact hlp
      case isFalse hlv => exact absurd h (by simp)
  · rintro ⟨d, hd1, he, hland, hv, hen, hnot, hk, hlv, hle⟩
    have hd7 : d < 8 := by
      have hb := hv
      rw [he] at hb
      simp only [is_valid_position, Bool.and_eq_true, decide_eq_true_eq] at hb hpos
      obtain ⟨⟨⟨hb1, hb2⟩, hb3⟩, hb4⟩ := hb
      obtain ⟨⟨⟨hp1, hp2⟩, hp3⟩, hp4⟩ := hpos
      rcases hdr with rfl | rfl <;> omega
    have hscan : kingScan b piece caps row col dr dc 7 1 = some (e, d) :=
      (kingScan_iff b piece caps row col dr dc 7 1 e d).2
        ⟨hd1, by omega, he, hv, hen, hnot, fun k hk1 hk2 => hk k hk1 hk2⟩
    rw [hscan]
    dsimp only
    have hl1 : row + dr * ((d + 1 : ℕ) : ℤ) = land.1 := by rw [hland, hcast]
    have hl2 : col + dc * ((d + 1 : ℕ) : ℤ) = land.2 := by rw [hland, hcast]
    rw [hl1, hl2, if_pos hlv, hle]

/-! Equivalence of the fueled evaluation pipeline with the real
enumerators. -/

lemma remainingEnemies_le (b : Board) (piece : Piece) (caps : List (ℤ × ℤ)) :
    remainingEnemies b piece caps ≤ 64 := by
  refine le_trans (Finset.card_filter_le _ _) ?_
  simp [Finset.card_product]

lemma manCapMovesEv_eq :
    ∀ (fuel : ℕ) (b : Board) (row col : ℤ) (piece : Piece) (direction : ℤ)
      (caps : List (ℤ × ℤ)) (orig : ℤ × ℤ),
    remainingEnemies b piece caps < fuel →
    manCapMovesEv fuel b row col piece direction caps orig =
      _get_man_capture_moves b row col piece direction caps orig := by
  intro fuel
  induction fuel with
  | zero => intro b row col piece direction caps orig h; omega
  | succ n ih =>
    intro b row col piece direction caps orig h
    rw [man_cap_moves_unfold]
    simp only [manCapMovesEv]
    congr 1
    · cases hdir : manCapDir b row col piece direction caps (-1) with
      | none => simp [manCapBranch]
      | some eland =>
        obtain ⟨hv, ht, hn, _⟩ := manCapDir_some hdir
        have hlt := remainingEnemies_lt b piece caps eland.1 hv ht hn
        simp only [manCapBranch]
        rw [ih b eland.2.1 eland.2.2 piece direction (caps ++ [eland.1]) orig (by omega)]
    · cases hdir : manCapDir b row col piece direction caps 1 with
      | none => simp [manCapBranch]
      | some eland =>
        obtain ⟨hv, ht, hn, _⟩ := manCapDir_some hdir
        have hlt := remainingEnemies_lt b piece caps eland.1 hv ht hn
        simp only [manCapBranch]
        rw [ih b eland.2.1 eland.2.2 piece direction (caps ++ [eland.1]) orig (by omega)]

lemma kingCapMovesEv_eq :
    ∀ (fuel : ℕ) (b : Board) (row col : ℤ) (piece : Piece)
      (caps : List (ℤ × ℤ)) (orig : ℤ × ℤ),
    remainingEnemies b piece caps < fuel →
    kingCapMovesEv fuel b row col piece caps orig =
      _get_king_capture_moves b row col piece caps orig := by
  intro fuel
  induction fuel with
  | zero => intro b row col piece caps orig h; omega
  | succ n ih =>
    intro b row col piece caps orig h
    have hbranch : ∀ dr dc : ℤ,
        (match kingCapDir b row col piece caps dr dc with
         | some eland =>
           let new_captured := caps ++ [eland.1]
           let next := kingCapMovesEv n b eland.2.1 eland.2.2 piece new_captured orig
           if next = [] then [⟨orig, eland.2, new_captured⟩] else next
         | none => []) =
        kingCapBranch b piece orig caps (kingCapDir b row col piece caps dr dc) := by
      intro dr dc
      cases hdir : kingCapDir b row col piece caps dr dc with
      | none => simp [kingCapBranch]
      | some eland =>
        obtain ⟨hv, ht, hn⟩ := kingCapDir_some hdir
        have hlt := remainingEnemies_lt b piece caps eland.1 hv ht hn
        simp only [kingCapBranch]
        rw [ih b eland.2.1 eland.2.2 piece (caps ++ [eland.1]) orig (by omega)]
    rw [king_cap_moves_unfold]
    simp only [kingCapMovesEv]
    rw [hbranch, hbranch, hbranch, hbranch]

lemma getValidMovesEv_eq (b : Board) (row col : ℤ) :
    getValidMovesEv b row col = get_valid_moves b row col := by
  unfold getValidMovesEv get_valid_moves
  cases get_piece b row col with
  | none => rfl
  | some piece =>
    dsimp only
    by_cases hk : piece.is_king = true
    · rw [if_pos hk, if_pos hk]
      unfold _get_king_moves
      rw [kingCapMovesEv_eq 65 b row col piece [] (row, col)
        (by have := remainingEnemies_le b piece []; omega)]
    · rw [if_neg hk, if_neg hk]
      unfold _get_man_moves
      rw [manCapMovesEv_eq 65 b row col piece (man_direction piece) [] (row, col)
        (by have := remainingEnemies_le b piece []; omega)]

lemma getAllValidMovesEv_eq (b : Board) (player : Player) :
    getAllValidMovesEv b player = get_all_valid_moves b player := by
  unfold getAllValidMovesEv get_all_valid_moves all_piece_moves
  simp only [getValidMovesEv_eq]

lemma isGameOverEv_eq (b : Board) : isGameOverEv b = is_game_over b := by
  unfold isGameOverEv is_game_over
  rw [getAllValidMovesEv_eq, getAllValidMovesEv_eq]

lemma get_piece_valid {b : Board} {row col : ℤ} {p : Piece}
    (h : get_piece b row col = some p) : is_valid_position row col = true := by
  unfold get_piece at h
  by_cases hv : is_valid_position row col = true
  · exact hv
  · rw [if_neg hv] at h; exact absurd h (by simp)

/-! The claim theorems. -/

/-- C8: for every dark square (row+col odd, coordinates in 0..7) the
notation number computed by `Board.get_square_number` lies in 1..32, is
assigned row-major over dark squares only, and `_square_num_to_pos`
inverts it; conversely every number in 1..32 maps to a dark in-range
square that maps back to it, so the numbering is a bijection between the
32 dark squares and 1..32. -/
theorem C8_notation_bijection (row col n : ℤ) :
    (0 ≤ row → row < 8 → 0 ≤ col → col < 8 → is_dark_square row col = true →
      (get_square_number row col).isSome = true ∧
      1 ≤ (get_square_number row col).getD 0 ∧
      (get_square_number row col).getD 0 ≤ 32 ∧
      square_num_to_pos ((get_square_number row col).getD 0) = (row, col)) ∧
    (1 ≤ n → n ≤ 32 →
      0 ≤ (square_num_to_pos n).1 ∧ (square_num_to_pos n).1 < 8 ∧
      0 ≤ (square_num_to_pos n).2 ∧ (square_num_to_pos n).2 < 8 ∧
      is_dark_square (square_num_to_pos n).1 (square_num_to_pos n).2 = true ∧
      get_square_number (square_num_to_pos n).1 (square_num_to_pos n).2 = some n) := by
  constructor
  · intro h1 h2 h3 h4 hdark
    interval_cases row <;> interval_cases col <;> revert hdark <;> decide
  · intro h1 h2
    interval_cases n <;> decide

/-- Witness for C8 at the dark square (0,1) (number 1) and at number 5. -/
theorem C8_notation_bijection_w :
    ((get_square_number 0 1).isSome = true ∧
     1 ≤ (get_square_number 0 1).getD 0 ∧
     (get_square_number 0 1).getD 0 ≤ 32 ∧
     square_num_to_pos ((get_square_number 0 1).getD 0) = (0, 1)) ∧
    (0 ≤ (square_num_to_pos 5).1 ∧ (square_num_to_pos 5).1 < 8 ∧
     0 ≤ (square_num_to_pos 5).2 ∧ (square_num_to_pos 5).2 < 8 ∧
     is_dark_square (square_num_to_pos 5).1 (square_num_to_pos 5).2 = true ∧
     get_square_number (square_num_to_pos 5).1 (square_num_to_pos 5).2 = some 5) :=
  ⟨(C8_notation_bijection 0 1 5).1 (by decide) (by decide) (by decide) (by decide) (by decide),
   (C8_notation_bijection 0 1 5).2 (by decide) (by decide)⟩

/-- C9: after `Board.move_piece`, the piece now at the destination has the
same owner and is a King exactly when it already was one or its
destination row is its side's far edge row (0 for WHITE, 7 for BLACK) —
promotion is one-directional and Kings never demote. -/
theorem C9_promotion (b : Board) (from_row from_col to_row to_col : ℤ) (piece : Piece)
    (hpiece : get_piece b from_row from_col = some piece)
    (hvalid : is_valid_position to_row to_col = true)
    (hne : ¬(to_row = from_row ∧ to_col = from_col)) :
    get_piece (move_piece b from_row from_col to_row to_col) to_row to_col =
      some ⟨piece.player,
        if piece.piece_type = PieceType.KING ∨
            (piece.player = Player.WHITE ∧ to_row = 0) ∨
            (piece.player = Player.BLACK ∧ to_row = 7) then PieceType.KING
        else piece.piece_type⟩ := by
  simp only [move_piece, hpiece]
  rw [get_set_other _ _ _ _ _ _ hne, get_set_same _ _ _ _ hvalid]
  rcases piece with ⟨pl, pt⟩
  cases pl <;> cases pt <;> simp [Piece.is_king] <;> split_ifs <;> rfl

/-- Witness for C9: a WHITE Man moved from (1,2) to the far edge square
(0,1) arrives as a King. -/
theorem C9_promotion_w :
    get_piece (move_piece boardPromo 1 2 0 1) 0 1 =
      some ⟨Player.WHITE, PieceType.KING⟩ := by
  have h := C9_promotion boardPromo 1 2 0 1 whiteMan (by decide) (by decide) (by decide)
  simpa [whiteMan] using h

/-- C10: `is_game_over` never reports the game over without naming a
winner (the first component always equals `isSome` of the second), and
consequently a minimax call on a game-over board always returns
±(1000+depth) — the draw branch returning 0 can never run. -/
theorem C10_no_drawn_terminal (b : Board) (depth : ℕ) (alpha beta : XQ)
    (maximizing : Bool) (ai_player : Player) :
    (is_game_over b).1 = ((is_game_over b).2).isSome ∧
    ((is_game_over b).1 = true →
      minimax b depth alpha beta maximizing ai_player = XQ.fin (1000 + (depth : ℚ)) ∨
      minimax b depth alpha beta maximizing ai_player = XQ.fin (-(1000 + (depth : ℚ)))) := by
  have hpart1 : (is_game_over b).1 = ((is_game_over b).2).isSome := by
    unfold is_game_over
    dsimp only
    split_ifs <;> rfl
  refine ⟨hpart1, ?_⟩
  intro h
  rw [minimax.eq_def]
  dsimp only
  rw [if_pos h]
  have hs : ((is_game_over b).2).isSome = true := hpart1 ▸ h
  obtain ⟨w, hw⟩ := Option.isSome_iff_exists.1 hs
  rw [hw]
  cases w <;> cases ai_player
  · left; simp
  · right; simp [Player.opp]
  · right; simp [Player.opp]
  · left; simp

/-- Witness for C10 on the empty board (game over, BLACK wins): minimax
returns one of the two decisive scores. -/
theorem C10_no_drawn_terminal_w :
    minimax boardEmpty 3 XQ.negInf XQ.posInf true Player.WHITE =
      XQ.fin (1000 + ((3 : ℕ) : ℚ)) ∨
    minimax boardEmpty 3 XQ.negInf XQ.posInf true Player.WHITE =
      XQ.fin (-(1000 + ((3 : ℕ) : ℚ))) :=
  (C10_no_drawn_terminal boardEmpty 3 XQ.negInf XQ.posInf true Player.WHITE).2
    (by rw [← isGameOverEv_eq]; decide)

/-- C7: minimax checks game-over before depth exhaustion, returning
1000+depth when the maximizing side (`ai_player`) has won, −1000−depth
when it has lost, and 0 on a no-winner game over; with the game not over
it returns the static evaluation at depth 0, and also when the side to
move has no legal moves. -/
theorem C7_minimax_terminal (b : Board) (depth : ℕ) (alpha beta : XQ)
    (maximizing : Bool) (ai_player : Player) :
    ((is_game_over b).1 = true →
      minimax b depth alpha beta maximizing ai_player =
        (if (is_game_over b).2 = some ai_player then XQ.fin (1000 + (depth : ℚ))
         else if (is_game_over b).2 = some ai_player.opp then
           XQ.fin (-(1000 + (depth : ℚ)))
         else XQ.fin 0)) ∧
    ((is_game_over b).1 = false → depth = 0 →
      minimax b depth alpha beta maximizing ai_player = XQ.fin (evaluate b ai_player)) ∧
    ((is_game_over b).1 = false →
      get_all_valid_moves b (if maximizing then ai_player else ai_player.opp) = [] →
      minimax b depth alpha beta maximizing ai_player = XQ.fin (evaluate b ai_player)) := by
  refine ⟨?_, ?_, ?_⟩
  · intro h
    rw [minimax.eq_def]
    dsimp only
    rw [if_pos h]
  · intro h hd
    subst hd
    rw [minimax.eq_def]
    dsimp only
    rw [if_neg (by simp [h]), dif_pos rfl]
  · intro h hm
    rw [minimax.eq_def]
    dsimp only
    rw [if_neg (by simp [h])]
    by_cases hd : depth = 0
    · rw [dif_pos hd]
    · rw [dif_neg hd, if_pos hm]

/-- Witness for C7: the empty board is game over (terminal branch), and on
a quiet two-sided board at depth 0 minimax returns the static
evaluation. -/
theorem C7_minimax_terminal_w :
    (minimax boardEmpty 2 XQ.negInf XQ.posInf true Player.WHITE =
      (if (is_game_over boardEmpty).2 = some Player.WHITE then
        XQ.fin (1000 + ((2 : ℕ) : ℚ))
       else if (is_game_over boardEmpty).2 = some Player.WHITE.opp then
        XQ.fin (-(1000 + ((2 : ℕ) : ℚ)))
       else XQ.fin 0)) ∧
    minimax boardTwoSides 0 XQ.negInf XQ.posInf true Player.WHITE =
      XQ.fin (evaluate boardTwoSides Player.WHITE) :=
  ⟨(C7_minimax_terminal boardEmpty 2 XQ.negInf XQ.posInf true Player.WHITE).1
      (by rw [← isGameOverEv_eq]; decide),
   (C7_minimax_terminal boardTwoSides 0 XQ.negInf XQ.posInf true Player.WHITE).2.1
      (by rw [← isGameOverEv_eq]; decide) rfl⟩

/-- C1: `get_all_valid_moves` is the union of the per-piece enumerations
filtered by mandatory capture: when any capture move exists in the union
the result is exactly the capture moves (and contains no quiet move),
otherwise it is the full union. -/
theorem C1_mandatory_capture (b : Board) (player : Player) :
    (get_all_valid_moves b player =
      (if (all_piece_moves b player).filter Move.is_capture ≠ [] then
        (all_piece_moves b player).filter Move.is_capture
       else all_piece_moves b player)) ∧
    ((all_piece_moves b player).any Move.is_capture = true →
      get_all_valid_moves b player = (all_piece_moves b player).filter Move.is_capture ∧
      (get_all_valid_moves b player).all Move.is_capture = true) ∧
    ((all_piece_moves b player).any Move.is_capture = false →
      get_all_valid_moves b player = all_piece_moves b player) := by
  have hdef : get_all_valid_moves b player =
      (if (all_piece_moves b player).filter Move.is_capture ≠ [] then
        (all_piece_moves b player).filter Move.is_capture
       else all_piece_moves b player) := rfl
  refine ⟨hdef, ?_, ?_⟩
  · intro hany
    obtain ⟨x, hx, hpx⟩ := List.any_eq_true.1 hany
    have hne : (all_piece_moves b player).filter Move.is_capture ≠ [] := by
      intro hnil
      have hmem : x ∈ (all_piece_moves b player).filter Move.is_capture :=
        List.mem_filter.2 ⟨hx, hpx⟩
      rw [hnil] at hmem
      exact List.not_mem_nil x hmem
    refine ⟨by rw [hdef, if_pos hne], ?_⟩
    rw [hdef, if_pos hne, List.all_eq_true]
    intro y hy
    exact (List.mem_filter.1 hy).2
  · intro hany
    have hnil : (all_piece_moves b player).filter Move.is_capture = [] := by
      rw [List.filter_eq_nil_iff]
      intro a ha
      simp only [List.any_eq_false] at hany
      intro hcap
      exact hany a ha hcap
    rw [hdef, hnil]
    simp

/-- Witness for C1: on `boardCapture` the union holds a capture and only
capture moves are returned; on `boardQuiet` there is none and the full
union is returned. -/
theorem C1_mandatory_capture_w :
    ((all_piece_moves boardCapture Player.WHITE).any Move.is_capture = true ∧
     get_all_valid_moves boardCapture Player.WHITE =
       (all_piece_moves boardCapture Player.WHITE).filter Move.is_capture ∧
     (get_all_valid_moves boardCapture Player.WHITE).all Move.is_capture = true) ∧
    ((all_piece_moves boardQuiet Player.WHITE).any Move.is_capture = false ∧
     get_all_valid_moves boardQuiet Player.WHITE = all_piece_moves boardQuiet Player.WHITE) := by
  have hc : (all_piece_moves boardCapture Player.WHITE).any Move.is_capture = true := by
    unfold all_piece_moves
    simp only [← getValidMovesEv_eq]
    decide
  have hq : (all_piece_moves boardQuiet Player.WHITE).any Move.is_capture = false := by
    unfold all_piece_moves
    simp only [← getValidMovesEv_eq]
    decide
  exact ⟨⟨hc, (C1_mandatory_capture boardCapture Player.WHITE).2.1 hc⟩,
    ⟨hq, (C1_mandatory_capture boardQuiet Player.WHITE).2.2 hq⟩⟩

/-- C5 counterexample: `execute_move` applies a move that is not in the
legal enumeration — it returns `True` (no illegal-move failure) and
mutates the board (the square (3,0) changes). -/
theorem C5_counterexample :
    illegalMove ∉ get_all_valid_moves boardQuiet Player.WHITE ∧
    (execute_move boardQuiet illegalMove).2 = true ∧
    get_piece (execute_move boardQuiet illegalMove).1 3 0 ≠ get_piece boardQuiet 3 0 := by
  refine ⟨?_, rfl, by decide⟩
  rw [← getAllValidMovesEv_eq]
  decide

/-- C5 (amended): `GameLogic.execute_move` performs no legality check: for
every board and move it unconditionally relocates the origin piece and
removes the captured squares, and always returns `True`; rejecting
illegal moves is the caller's responsibility. -/
theorem C5_amended_unconditional (b : Board) (move : Move) :
    (execute_move b move).2 = true ∧
    (execute_move b move).1 =
      move.captured_pieces.foldl (fun bd s => remove_piece bd s.1 s.2)
        (move_piece b move.from_pos.1 move.from_pos.2 move.to_pos.1 move.to_pos.2) :=
  ⟨rfl, rfl⟩

/-- C4 counterexample: on a board where both sides own a piece and the
side to move (BLACK) has no legal moves, `is_game_over` does not report
the other side (WHITE) as winner — it reports BLACK, because it checks
WHITE's mobility first and WHITE happens to be blocked too. -/
theorem C4_counterexample :
    0 < count_pieces boardBothBlocked Player.BLACK ∧
    0 < count_pieces boardBothBlocked Player.WHITE ∧
    get_all_valid_moves boardBothBlocked Player.BLACK = [] ∧
    is_game_over boardBothBlocked = (true, some Player.BLACK) ∧
    (((true : Bool), some Player.BLACK) : Bool × Option Player) ≠ (true, some Player.WHITE) := by
  refine ⟨by decide, by decide, ?_, ?_, by decide⟩
  · rw [← getAllValidMovesEv_eq]; decide
  · rw [← isGameOverEv_eq]; decide

/-- C4 (amended): `is_game_over` takes no side-to-move: a side with zero
pieces loses (provided the opponent still has a piece); when exactly one
side has no legal moves, that side loses regardless of whose turn it is;
when both sides have pieces and moves the game continues. -/
theorem C4_amended (b : Board) (p : Player) :
    (count_pieces b p = 0 → 0 < count_pieces b p.opp →
      is_game_over b = (true, some p.opp)) ∧
    (0 < count_pieces b p → 0 < count_pieces b p.opp →
      get_all_valid_moves b p = [] → get_all_valid_moves b p.opp ≠ [] →
      is_game_over b = (true, some p.opp)) ∧
    (0 < count_pieces b Player.WHITE → 0 < count_pieces b Player.BLACK →
      get_all_valid_moves b Player.WHITE ≠ [] → get_all_valid_moves b Player.BLACK ≠ [] →
      is_game_over b = (false, none)) := by
  refine ⟨?_, ?_, ?_⟩
  · intro h0 hopp
    cases p
    · unfold is_game_over
      dsimp only
      rw [if_pos h0]
      rfl
    · simp only [Player.opp] at hopp ⊢
      unfold is_game_over
      dsimp only
      rw [if_neg (by omega), if_pos h0]
  · intro hp hopp hmoves hoppmoves
    cases p
    · simp only [Player.opp] at hopp hoppmoves ⊢
      unfold is_game_over
      dsimp only
      rw [if_neg (by omega), if_neg (by omega), if_pos hmoves]
    · simp only [Player.opp] at hopp hoppmoves ⊢
      unfold is_game_over
      dsimp only
      rw [if_neg (by omega), if_neg (by omega), if_neg hoppmoves, if_pos hmoves]
  · intro h1 h2 h3 h4
    unfold is_game_over
    dsimp only
    rw [if_neg (by omega), if_neg (by omega), if_neg h3, if_neg h4]

/-- Witness for C4 (amended): WHITE with zero pieces loses; a blocked
WHITE with a mobile BLACK loses; two mobile sides continue. -/
theorem C4_amended_w :
    is_game_over boardOnlyBlack = (true, some Player.BLACK) ∧
    is_game_over boardWhiteBlocked = (true, some Player.BLACK) ∧
    is_game_over boardTwoSides = (false, none) := by
  refine ⟨?_, ?_, ?_⟩
  · exact (C4_amended boardOnlyBlack Player.WHITE).1 (by decide) (by decide)
  · exact (C4_amended boardWhiteBlocked Player.WHITE).2.1 (by decide) (by decide)
      (by rw [← getAllValidMovesEv_eq]; decide)
      (by rw [← getAllValidMovesEv_eq]; decide)
  · exact (C4_amended boardTwoSides Player.WHITE).2.2 (by decide) (by decide)
      (by rw [← getAllValidMovesEv_eq]; decide)
      (by rw [← getAllValidMovesEv_eq]; decide)

/-- C2: every capture move enumerated for a Man is a maximal forward
chain: its origin is the Man's original square, its destination is
reached from the origin by a sequence of forward jumps capturing exactly
the recorded squares in order (`ManJumpSeq`), each jumped square is
recorded exactly once (`Nodup`), the list is nonempty, and no further
forward jump is available from the destination with those captures
(neither diagonal offers one), so shorter prefixes are superseded rather
than returned. -/
theorem C2_man_capture_chains (b : Board) (row col : ℤ) (piece : Piece) (mv : Move)
    (hpiece : get_piece b row col = some piece)
    (hman : piece.is_king = false)
    (hmem : mv ∈ _get_man_capture_moves b row col piece (man_direction piece) [] (row, col)) :
    mv.from_pos = (row, col) ∧
    mv.captured_pieces ≠ [] ∧
    mv.captured_pieces.Nodup ∧
    ManJumpSeq b piece (man_direction piece) (row, col) [] mv.to_pos mv.captured_pieces ∧
    manCapDir b mv.to_pos.1 mv.to_pos.2 piece (man_direction piece)
      mv.captured_pieces (-1) = none ∧
    manCapDir b mv.to_pos.1 mv.to_pos.2 piece (man_direction piece)
      mv.captured_pieces 1 = none := by
  obtain ⟨h1, ⟨suffix, hs1, hs2⟩, h3, h4, h5, h6⟩ :=
    man_cap_moves_sound b row col piece (man_direction piece) [] (row, col) mv hmem
  refine ⟨h1, ?_, h3 List.nodup_nil, h4, h5, h6⟩
  rw [hs2]
  simpa using hs1

/-- Witness for C2: on `boardTwoJump` the Man's capture enumeration is the
single two-jump Move (5,2) → (1,2) capturing (4,1) then (2,1) — one Move
with exactly two captured squares, not one per hop — and it satisfies all
the chain properties. -/
theorem C2_man_capture_chains_w :
    _get_man_capture_moves boardTwoJump 5 2 whiteMan (man_direction whiteMan) [] (5, 2) =
      [twoJumpMove] ∧
    twoJumpMove.from_pos = (5, 2) ∧
    twoJumpMove.captured_pieces ≠ [] ∧
    twoJumpMove.captured_pieces.Nodup ∧
    ManJumpSeq boardTwoJump whiteMan (man_direction whiteMan) (5, 2) []
      twoJumpMove.to_pos twoJumpMove.captured_pieces ∧
    manCapDir boardTwoJump twoJumpMove.to_pos.1 twoJumpMove.to_pos.2 whiteMan
      (man_direction whiteMan) twoJumpMove.captured_pieces (-1) = none ∧
    manCapDir boardTwoJump twoJumpMove.to_pos.1 twoJumpMove.to_pos.2 whiteMan
      (man_direction whiteMan) twoJumpMove.captured_pieces 1 = none := by
  have henum : _get_man_capture_moves boardTwoJump 5 2 whiteMan
      (man_direction whiteMan) [] (5, 2) = [twoJumpMove] := by
    rw [← manCapMovesEv_eq 65 boardTwoJump 5 2 whiteMan (man_direction whiteMan) [] (5, 2)
      (by have := remainingEnemies_le boardTwoJump whiteMan []; omega)]
    decide
  have h := C2_man_capture_chains boardTwoJump 5 2 whiteMan twoJumpMove
    (by decide) (by decide) (by rw [henum]; exact List.mem_singleton.2 rfl)
  exact ⟨henum, h⟩

/-- C3: the King per-direction capture attempt is fully characterized by:
the scan stops at the first piece not yet in the chain at some distance
`d ≥ 1`, passing through every nearer square that is empty or already
captured in the chain (captured squares neither block nor are capturable
again); that piece must be an opponent's (an own piece yields no capture);
and the King lands exactly on the next square beyond it, which must be
empty and on-board — never a farther square. -/
theorem C3_king_capture_scan (b : Board) (row col : ℤ) (piece : Piece)
    (caps : List (ℤ × ℤ)) (dr dc : ℤ) (e land : ℤ × ℤ)
    (hpiece : get_piece b row col = some piece)
    (hking : piece.is_king = true)
    (hdr : dr = -1 ∨ dr = 1) (hdc : dc = -1 ∨ dc = 1) :
    kingCapDir b row col piece caps dr dc = some (e, land) ↔
    (∃ d : ℕ, 1 ≤ d ∧
      e = (row + dr * d, col + dc * d) ∧
      land = (row + dr * ((d : ℤ) + 1), col + dc * ((d : ℤ) + 1)) ∧
      is_valid_position e.1 e.2 = true ∧
      (∃ t, get_piece b e.1 e.2 = some t ∧ t.player ≠ piece.player) ∧
      e ∉ caps ∧
      (∀ k : ℕ, 1 ≤ k → k < d →
        is_valid_position (row + dr * k) (col + dc * k) = true ∧
        (get_piece b (row + dr * k) (col + dc * k) = none ∨
         (row + dr * k, col + dc * k) ∈ caps)) ∧
      is_valid_position land.1 land.2 = true ∧
      get_piece b land.1 land.2 = none) :=
  kingCapDir_iff b row col piece caps dr dc e land (get_piece_valid hpiece) hdr

/-- Witness for C3: on `boardKingChain` with (6,1) already captured in the
chain, the scan from (7,0) along (−1,+1) passes through the captured
square (6,1), through the empty (5,2), finds the enemy at (4,3) and lands
exactly at (3,4) — the first captured piece does not block the second. -/
theorem C3_king_capture_scan_w :
    kingCapDir boardKingChain 7 0 whiteKing [(6, 1)] (-1) 1 = some ((4, 3), (3, 4)) := by
  apply (C3_king_capture_scan boardKingChain 7 0 whiteKing [(6, 1)] (-1) 1 (4, 3) (3, 4)
    (by decide) (by decide) (Or.inl rfl) (Or.inr rfl)).2
  refine ⟨3, by omega, by decide, by decide, by decide, ⟨blackMan, by decide, by decide⟩,
    by decide, ?_, by decide, by decide⟩
  intro k h1 h2
  interval_cases k
  · exact ⟨by decide, Or.inr (by decide)⟩
  · exact ⟨by decide, Or.inl (by decide)⟩

/-- C6: for positive depth, `get_best_move` returns no move when the side
has none; returns the unique legal move when exactly one exists; and
otherwise evaluates every root move's child with the minimizing minimax
call at depth−1 and returns the first move, in enumeration order, whose
value is maximal (strict improvement only, so ties keep the first-seen
move) — i.e. it equals the spec-side `spec_best_move` selection. -/
theorem C6_root_selection (b : Board) (player : Player) (depth : ℕ)
    (hdepth : 0 < depth) :
    (get_all_valid_moves b player = [] → get_best_move b player depth = none) ∧
    (∀ mv : Move, get_all_valid_moves b player = [mv] →
      get_best_move b player depth = some mv) ∧
    (2 ≤ (get_all_valid_moves b player).length →
      get_best_move b player depth =
        spec_best_move
          (fun mv => minimax (execute_move b mv).1 (depth - 1) XQ.negInf XQ.posInf false player)
          (get_all_valid_moves b player)) := by
  refine ⟨?_, ?_, ?_⟩
  · intro h
    unfold get_best_move
    dsimp only
    rw [if_pos h]
  · intro mv h
    unfold get_best_move
    dsimp only
    rw [h]
    simp
  · intro h2
    unfold get_best_move
    dsimp only
    cases hm : get_all_valid_moves b player with
    | nil => rw [hm] at h2; simp at h2
    | cons m1 rest =>
      have hlen : ¬((m1 :: rest).length = 1) := by
        rw [hm] at h2
        simp only [List.length_cons] at h2 ⊢
        omega
      rw [if_neg (by simp), if_neg hlen]
      obtain ⟨q1, hq1⟩ := minimax_fin (depth - 1) (execute_move b m1).1
        XQ.negInf XQ.posInf false player
      simp only [bestLoop, hq1]
      rw [if_pos (by simp [XQ.lt])]
      rw [← hq1]
      rw [bestLoop_eq_pickMax
        (fun mv => minimax (execute_move b mv).1 (depth - 1) XQ.negInf XQ.posInf false player)
        rest m1]
      unfold spec_best_move
      rw [pickMax_eq_find]

/-- Witness for C6: no move on the empty board; the unique move on
`boardOneMove`; and on `boardThreeMoves` the loop result equals the
spec-side selection and is the first of the three (equal-valued) root
moves. -/
theorem C6_root_selection_w :
    get_best_move boardEmpty Player.WHITE 1 = none ∧
    get_best_move boardOneMove Player.WHITE 1 = some ⟨(5, 0), (4, 1), []⟩ ∧
    get_best_move boardThreeMoves Player.WHITE 1 =
      spec_best_move
        (fun mv => minimax (execute_move boardThreeMoves mv).1 0 XQ.negInf XQ.posInf
          false Player.WHITE)
        (get_all_valid_moves boardThreeMoves Player.WHITE) ∧
    get_best_move boardThreeMoves Player.WHITE 1 = some ⟨(5, 0), (4, 1), []⟩ := by
  have hmoves : get_all_valid_moves boardThreeMoves Player.WHITE =
      [⟨(5, 0), (4, 1), []⟩, ⟨(5, 4), (4, 3), []⟩, ⟨(5, 4), (4, 5), []⟩] := by
    rw [← getAllValidMovesEv_eq]; decide
  have hval : ∀ mv : Move,
      is_game_over (execute_move boardThreeMoves mv).1 = (true, some Player.WHITE) →
      minimax (execute_move boardThreeMoves mv).1 0 XQ.negInf XQ.posInf false Player.WHITE =
        XQ.fin (1000 + ((0 : ℕ) : ℚ)) := by
    intro mv hgo
    rw [minimax.eq_def, hgo]
    simp
  have hf1 := hval ⟨(5, 0), (4, 1), []⟩ (by rw [← isGameOverEv_eq]; decide)
  have hf2 := hval ⟨(5, 4), (4, 3), []⟩ (by rw [← isGameOverEv_eq]; decide)
  have hf3 := hval ⟨(5, 4), (4, 5), []⟩ (by rw [← isGameOverEv_eq]; decide)
  have hspec := (C6_root_selection boardThreeMoves Player.WHITE 1 (by omega)).2.2
    (by rw [hmoves]; decide)
  refine ⟨(C6_root_selection boardEmpty Player.WHITE 1 (by omega)).1
      (by rw [← getAllValidMovesEv_eq]; decide),
    (C6_root_selection boardOneMove Player.WHITE 1 (by omega)).2.1 _
      (by rw [← getAllValidMovesEv_eq]; decide),
    hspec, ?_⟩
  rw [hspec, hmoves]
  unfold spec_best_move
  simp only [List.find?, List.all, hf1, hf2, hf3]
  norm_num [XQ.le, XQ.lt]

end ThaiChecker
